import Mathlib

/-!
Verification of the CHANGELOG parsing and rewriting engine of
`tool-create-release` (`src/bumpchanges/changelog.py` together with
`version_to_tag_str` from `src/bumpchanges/utils.py`).

The markdown tokenizer (`markdown_it`) and renderer (`mdformat`) are external
collaborators; the engine consumes and re-emits their token streams.  Tokens
are modelled as a record of the fields the engine reads or writes (`type`,
`tag`, `nesting`, `content`, `children`, `markup`, `level`, `block`, `hidden`,
and the `attrs`/`meta` entries used for links).  The source-map field (`map`)
is carried by no operation modelled here and is omitted; error-message
interpolations that only embed that field are rendered without it.

Python exceptions are modelled by `PyError`; the dynamic dict `kwargs` built
by `ChangelogVersion.from_tokens` is modelled by `Kwargs`, an insertion-ordered
association list for the category keys next to the statically-known keys.
-/

/-- A markdown-it token (the fields used by `changelog.py`). -/
inductive Token where
  | mk (type tag : String) (nesting : Int) (content : String)
      (children : List Token) (markup : String) (level : Int)
      (block hidden : Bool) (attrsHref metaLabel : Option String)
deriving Repr

def Token.type : Token → String
  | .mk t _ _ _ _ _ _ _ _ _ _ => t

def Token.tag : Token → String
  | .mk _ t _ _ _ _ _ _ _ _ _ => t

def Token.nesting : Token → Int
  | .mk _ _ n _ _ _ _ _ _ _ _ => n

def Token.content : Token → String
  | .mk _ _ _ c _ _ _ _ _ _ _ => c

def Token.children : Token → List Token
  | .mk _ _ _ _ c _ _ _ _ _ _ => c

def Token.markup : Token → String
  | .mk _ _ _ _ _ m _ _ _ _ _ => m

/-- Decidable equality for tokens (children make `Token` a nested inductive). -/
def Token.beq : Token → Token → Bool
  | .mk t1 g1 n1 c1 ch1 m1 l1 b1 h1 a1 e1, .mk t2 g2 n2 c2 ch2 m2 l2 b2 h2 a2 e2 =>
    t1 == t2 && g1 == g2 && n1 == n2 && c1 == c2 && beqList ch1 ch2 && m1 == m2 &&
    l1 == l2 && b1 == b2 && h1 == h2 && a1 == a2 && e1 == e2
where beqList : List Token → List Token → Bool
  | [], [] => true
  | x :: xs, y :: ys => Token.beq x y && beqList xs ys
  | _, _ => false

/-- Exceptions raised (or propagated) by the engine. -/
inductive PyError where
  | changelogError (msg : String)
  | typeError (msg : String)
  | attributeError (msg : String)
  | emptyList
deriving Repr, DecidableEq

/-! ## Regular expressions of `changelog.py`, as explicit matchers

Heading contents produced by the tokenizer are single-line (markdown headings
cannot contain a raw newline), so `.` is modelled as "any character" and `$`
as end of string. -/

/-- `\s` (the characters Python's `re` treats as whitespace for ASCII input). -/
def isPySpace (c : Char) : Bool :=
  c = ' ' || c = '\t' || c = '\n' || c = '\r' || c = '\x0b' || c = '\x0c'

/-- The optional tail `(?:\s+-\s+(?P<date>.*))?$` shared by both heading
regexes: `none` if nothing matches here, `some none` if the tail is empty
(optional group skipped), `some (some d)` if the group captured date `d`.
The first `\s+` is greedy; a shorter run would leave a whitespace character
where `-` is required, so the maximal run is the only candidate. -/
def tailMatchL (cs : List Char) : Option (Option (List Char)) :=
  match cs with
  | [] => some none
  | _ =>
    let w := cs.takeWhile isPySpace
    if w.isEmpty then none
    else
      match cs.dropWhile isPySpace with
      | '-' :: r =>
        if (r.takeWhile isPySpace).isEmpty then none
        else some (some (r.dropWhile isPySpace))
      | _ => none

/-- Inner loop of `link_heading_re` after `](`: lazy `(?:.+?)` then `\)` then
the optional date tail.  Scans for the first `)` position (shortest url)
whose remainder matches the tail; on failure the `)` is absorbed into the
url and scanning continues. -/
def mlhU : List Char → Option (Option (List Char))
  | [] => none
  | _ :: rest =>
    match rest with
    | ')' :: r2 =>
      match tailMatchL r2 with
      | some d => some d
      | none => mlhU rest
    | _ => mlhU rest

/-- Inner loop of `link_heading_re` after the initial `[`: lazy
`(?P<version_str>.+?)` then `](`.  `vAcc` holds the version characters read
so far, in reverse. -/
def mlhV (vAcc : List Char) : List Char → Option (List Char × Option (List Char))
  | [] => none
  | c :: rest =>
    let vAcc' := c :: vAcc
    match rest with
    | ']' :: '(' :: r2 =>
      match mlhU r2 with
      | some d => some (vAcc'.reverse, d)
      | none => mlhV vAcc' rest
    | _ => mlhV vAcc' rest

/-- `link_heading_re = ^\[(?P<version_str>.+?)\]\((?:.+?)\)(?:\s+-\s+(?P<date>.*))?$`. -/
def matchLinkHeadingL (cs : List Char) : Option (List Char × Option (List Char)) :=
  match cs with
  | '[' :: rest => mlhV [] rest
  | _ => none

/-- Body of `heading_re` after the optional `[`: lazy
`(?P<version_str>.+?)` then `\]?` then the optional date tail.  When the
remainder starts with `]` the branch keeping the `]` unconsumed always fails
(the tail cannot start with `]` and the remainder is non-empty), so only the
consuming branch is tried before the version grows. -/
def hrGo (vAcc : List Char) (rest : List Char) : Option (List Char × Option (List Char)) :=
  match rest with
  | [] => some (vAcc.reverse, none)
  | c :: r2 =>
    let att := if c = ']' then tailMatchL r2 else tailMatchL (c :: r2)
    match att with
    | some d => some (vAcc.reverse, d)
    | none => hrGo (c :: vAcc) r2

/-- `heading_re` body: `(?P<version_str>.+?)\]?(?:\s+-\s+(?P<date>.*))?$`. -/
def headingBody : List Char → Option (List Char × Option (List Char))
  | [] => none
  | c :: rest => hrGo [c] rest

/-- `heading_re = ^\[?(?P<version_str>.+?)\]?(?:\s+-\s+(?P<date>.*))?$`:
the greedy `\[?` branch is tried first, then the branch leaving `[` in the
version. -/
def headingReL (cs : List Char) : Option (List Char × Option (List Char)) :=
  match cs with
  | '[' :: rest =>
    match headingBody rest with
    | some r => some r
    | none => headingBody cs
  | _ => headingBody cs

/-- `from_tokens` tries `link_heading_re` then `heading_re` on the heading
content; result is `(version_str, date)` from the named groups. -/
def headingMatch (s : String) : Option (String × Option String) :=
  match matchLinkHeadingL s.toList with
  | some (v, d) => some (String.mk v, d.map String.mk)
  | none =>
    match headingReL s.toList with
    | some (v, d) => some (String.mk v, d.map String.mk)
    | none => none

/-- `leading_v_re = ^[vV]\d`. -/
def leadingV (s : String) : Bool :=
  match s.toList with
  | c :: d :: _ => (c = 'v' || c = 'V') && d.isDigit
  | _ => false

/-- `wrong_h1_re = ^\[v?\d` (a `[`, an optional `v`, then a digit). -/
def wrongH1 (s : String) : Bool :=
  match s.toList with
  | '[' :: 'v' :: d :: _ => d.isDigit
  | '[' :: d :: _ => d.isDigit
  | _ => false

/-- `wrong_h2_re = Add|Fix|Change|Remove` with `re.IGNORECASE`, used via
`.match` (anchored at the start of the content). -/
def wrongH2 (s : String) : Bool :=
  let l := s.toList.map Char.toLower
  ['a', 'd', 'd'].isPrefixOf l || ['f', 'i', 'x'].isPrefixOf l ||
  ['c', 'h', 'a', 'n', 'g', 'e'].isPrefixOf l || ['r', 'e', 'm', 'o', 'v', 'e'].isPrefixOf l

/-- `re.sub(r"^\[?(.*?)\]?:?$", r"\1", heading_name).lower()`: strip one
leading `[`, then the longest of the suffixes `]:`, `]`, `:` (the lazy group
makes the remainder maximal), then lower-case. -/
def stripHeadingName (s : String) : String :=
  let l := match s.toList with
    | '[' :: r => r
    | r => r
  let l2 := match l.reverse with
    | ':' :: ']' :: r => r.reverse
    | ':' :: r => r.reverse
    | ']' :: r => r.reverse
    | _ => l
  String.mk (l2.map Char.toLower)

/-- `HEADING_REPLACEMENTS` lookup (with default: the name itself). -/
def headingReplacements (s : String) : String :=
  if s = "updated" then "changed"
  else if s = "change" then "changed"
  else if s = "add" then "added"
  else if s = "fix" then "fixed"
  else s

/-- The full normalization applied to a category heading in `from_tokens`. -/
def normalizeHeading (s : String) : String :=
  headingReplacements (stripHeadingName s)

/-! ## The `ChangelogVersion` dataclass and the `kwargs` dictionary -/

/-- The `ChangelogVersion` dataclass.  `notices` holds verbatim paragraph
token-groups; the six category fields hold verbatim list-item token runs. -/
structure ChangelogVersion where
  version_str : String
  date : Option String := none
  link : Option String := none
  notices : List (List Token) := []
  added : List Token := []
  changed : List Token := []
  deprecated : List Token := []
  removed : List Token := []
  fixed : List Token := []
  security : List Token := []

/-- `ChangelogVersion.UNRELEASED_VERSION`. -/
def UNRELEASED_VERSION : String := "Unreleased"

/-- `ChangelogVersion.blank_unreleased()`. -/
def ChangelogVersion.blank_unreleased : ChangelogVersion :=
  { version_str := UNRELEASED_VERSION }

/-- The six category names, in the serialization order `section_order`. -/
def sectionOrder : List String :=
  ["added", "changed", "deprecated", "removed", "fixed", "security"]

/-- The `kwargs` dictionary built by `from_tokens`: the statically-known keys
(`version_str`, `date`, `notices`) next to an insertion-ordered association
list for the category keys created by `setdefault`. -/
structure Kwargs where
  version_str : String
  date : Option String
  notices : List (List Token)
  extra : List (String × List Token)

/-- `kwargs.setdefault("notices", []).append(notice)`. -/
def Kwargs.addNotice (kw : Kwargs) (nt : List Token) : Kwargs :=
  { kw with notices := kw.notices ++ [nt] }

/-- `kwargs.setdefault(name, []).extend(items)` for a category-like key:
extend the existing entry in place, or append a new one. -/
def Kwargs.extendExtra (kw : Kwargs) (k : String) (items : List Token) : Kwargs :=
  { kw with extra :=
      if (kw.extra.lookup k).isSome then
        kw.extra.map (fun p => if p.1 = k then (p.1, p.2 ++ items) else p)
      else kw.extra ++ [(k, items)] }

/-- `cls(**kwargs)`: any key that is not a field of the dataclass raises
`TypeError: unexpected keyword argument`; the category keys fill the six
category fields (`link` is never a parsed key: the url group of
`link_heading_re` is non-capturing, so parsed entries always have
`link = None`). -/
def mkVersion (kw : Kwargs) : Except PyError ChangelogVersion :=
  if kw.extra.all (fun p => sectionOrder.contains p.1) then
    .ok { version_str := kw.version_str, date := kw.date, link := none,
          notices := kw.notices,
          added := ((kw.extra.lookup "added").getD []),
          changed := ((kw.extra.lookup "changed").getD []),
          deprecated := ((kw.extra.lookup "deprecated").getD []),
          removed := ((kw.extra.lookup "removed").getD []),
          fixed := ((kw.extra.lookup "fixed").getD []),
          security := ((kw.extra.lookup "security").getD []) }
  else .error (.typeError "__init__() got an unexpected keyword argument")

/-! ## Token-stream helpers: `parse_heading` and `parse_bullet_list` -/

/-- The shared pop-until-nesting-zero loop (`parse_bullet_list` and the
notice branch of `from_tokens`): pop tokens, accumulating nesting, until the
running sum reaches zero or the list is exhausted; returns the consumed run
and the remainder. -/
def popBalanced (n : Int) : List Token → List Token × List Token
  | [] => ([], [])
  | t :: rest =>
    let n' := n + t.nesting
    if n' = 0 then ([t], rest)
    else
      let p := popBalanced n' rest
      (t :: p.1, p.2)

/-- `parse_heading`: pop the `heading_open`/`inline`/`heading_close` triple,
returning the tag and the inline token.  (The Python error message also
interpolates the heading token's source map, omitted here.) -/
def parseHeadingF (ts : List Token) : Except PyError ((String × Token) × List Token) :=
  match ts with
  | a :: b :: _ :: rest =>
    if a.type = "heading_open" && b.type = "inline" then .ok ((a.tag, b), rest)
    else .error (.changelogError "Invalid header section")
  | _ => .error (.changelogError "Invalid header section")

/-- Result of `parse_bullet_list`: `EmptyListError`, `ChangelogError`, or the
inner list-item tokens together with the unconsumed remainder. -/
inductive BLRes where
  | emptyErr
  | malformed
  | okL (items rest : List Token)

/-- `parse_bullet_list`. -/
def parseBulletList (ts : List Token) : BLRes :=
  match ts with
  | [] => .emptyErr
  | t :: rest =>
    if t.type = "bullet_list_open" then
      let p := popBalanced 0 (t :: rest)
      match p.1.head?, p.1.getLast? with
      | some h, some l =>
        if h.type = "bullet_list_open" && l.type = "bullet_list_close" then
          .okL (p.1.drop 1).dropLast p.2
        else .malformed
      | _, _ => .malformed
    else .emptyErr

/-! ## `ChangelogVersion.from_tokens` -/

/-- One iteration of the `while tokens:` loop of `from_tokens` per recursive
step.  Every iteration pops at least one token, so fuel equal to the list
length never runs out (`consumeGo_fuel`); the fuel-exhausted branch returns
the unconsumed tokens, matching the loop's only other exit.

Faithfulness note: a category heading whose normalized name is
`version_str` or `date` hits `setdefault(...)` returning a `str`/`None`,
so `.extend` raises `AttributeError`; a name of `link` or `notices` would
be accepted by Python with a type-confused field and is conservatively
mapped to `TypeError` here (no theorem below depends on that case). -/
def consumeGo : Nat → Kwargs → List Token → Except PyError (Kwargs × List Token)
  | _, kw, [] => .ok (kw, [])
  | 0, kw, ts => .ok (kw, ts)
  | fuel + 1, kw, t :: rest =>
    if t.type = "heading_open" then
      match parseHeadingF (t :: rest) with
      | .error e => .error e
      | .ok ((_, inl), rest2) =>
        let nm := normalizeHeading inl.content
        match parseBulletList rest2 with
        | .emptyErr => consumeGo fuel kw rest2
        | .malformed => .error (.changelogError "Bullet list is malformed!")
        | .okL items rest3 =>
          if nm = "version_str" || nm = "date" then
            .error (.attributeError "object has no attribute extend")
          else if nm = "link" || nm = "notices" then
            .error (.typeError "category key collides with a non-category field")
          else consumeGo fuel (kw.extendExtra nm items) rest3
    else if t.type = "paragraph_open" then
      let p := popBalanced 0 (t :: rest)
      consumeGo fuel (kw.addNotice p.1) p.2
    else if t.type = "bullet_list_open" then
      match parseBulletList (t :: rest) with
      | .emptyErr => .error .emptyList
      | .malformed => .error (.changelogError "Bullet list is malformed!")
      | .okL items rest3 => consumeGo fuel (kw.extendExtra "changed" items) rest3
    else .error (.changelogError "Don't know how to handle these tokens")

/-- The `while tokens:` loop of `from_tokens`. -/
def consumeLoop (kw : Kwargs) (ts : List Token) : Except PyError (Kwargs × List Token) :=
  consumeGo ts.length kw ts

/-- `ChangelogVersion.from_tokens`. -/
def fromTokens (ts : List Token) : Except PyError ChangelogVersion :=
  match ts with
  | t0 :: t1 :: _ :: rest4 =>
    if t0.type = "heading_open" && t0.tag = "h2" && t1.type = "inline" then
      match headingMatch t1.content with
      | none => .error (.changelogError ("Invalid section heading: " ++ t1.content))
      | some (v0, d) =>
        let v := if leadingV v0 then String.mk (v0.toList.drop 1) else v0
        let rest := rest4.filter (fun t => t.type ≠ "hr")
        match consumeLoop ⟨v, d, [], []⟩ rest with
        | .error e => .error e
        | .ok (kw, leftover) =>
          if leftover.isEmpty then mkVersion kw
          else .error (.changelogError "Leftover tokens!")
    else .error (.changelogError "Invalid version section")
  | _ => .error (.changelogError "Invalid version section")

/-! ## `Changelog.__init__`: heading repair and document splitting -/

/-- `token.tag = ...`: replace the tag, leaving every other field alone. -/
def Token.withTag (t : Token) (tg : String) : Token :=
  match t with
  | .mk ty _ n c ch m l b h a e => .mk ty tg n c ch m l b h a e

/-- Processing of one token in the pairwise walk of `Changelog.__init__`:
returns the (possibly tag-repaired) token and whether it starts a new token
group.  `next?` is the following token (`None` at the end of the stream);
the Python code raises a bare `ChangelogError()` when a `h1`/`h2`
heading-open is the last token. -/
def step (t : Token) (next? : Option Token) : Except PyError (Token × Bool) :=
  if t.type = "heading_open" then
    if t.tag = "h1" then
      match next? with
      | none => .error (.changelogError "")
      | some n =>
        let t1 := if wrongH1 n.content then t.withTag "h2" else t
        if t1.tag = "h2" then
          if wrongH2 n.content then .ok (t1.withTag "h3", false)
          else .ok (t1, true)
        else .ok (t1, false)
    else if t.tag = "h2" then
      match next? with
      | none => .error (.changelogError "")
      | some n =>
        if wrongH2 n.content then .ok (t.withTag "h3", false)
        else .ok (t, true)
    else .ok (t, false)
  else .ok (t, false)

/-- The grouping loop of `Changelog.__init__`: walk the token stream pairwise,
appending each (possibly repaired) token to the current group and opening a
new group whenever a true `h2` heading-open is seen.  `cur` is the current
group in reverse; `done` holds the completed groups in reverse. -/
def goGroups : List Token → List Token → List (List Token) → Except PyError (List (List Token))
  | [], cur, done => .ok ((cur.reverse :: done).reverse)
  | t :: rest, cur, done =>
    match step t rest.head? with
    | .error e => .error e
    | .ok (t', false) => goGroups rest (t' :: cur) done
    | .ok (t', true) => goGroups rest [t'] (cur.reverse :: done)

/-- Split the token stream into the preamble group followed by one group per
release section (`groups` in `Changelog.__init__`). -/
def groupTokens (ts : List Token) : Except PyError (List (List Token)) :=
  goGroups ts [] []

/-- The `Changelog` object: repository url, preamble tokens, release list. -/
structure Changelog where
  repo_url : String
  header : List Token
  versions : List ChangelogVersion

/-- `Changelog.__init__`, starting from the already-tokenized file contents
(tokenization itself is the external collaborator). -/
def Changelog.parse (repo_url : String) (ts : List Token) : Except PyError Changelog :=
  match groupTokens ts with
  | .error e => .error e
  | .ok [] => .error (.changelogError "No versions!")
  | .ok (g0 :: gs) =>
    let header := g0.filter (fun t => t.tag ≠ "hr")
    match gs.mapM fromTokens with
    | .error e => .error e
    | .ok versions =>
      if versions.isEmpty then .error (.changelogError "No versions!")
      else .ok ⟨repo_url, header, versions⟩

/-! ## `ChangelogVersion.serialize` and `Changelog.render` -/

/-- `"#" * level`. -/
def hashMarkup (level : Nat) : String :=
  String.mk (List.replicate level '#')

/-- The `heading` helper: heading-open/inline/heading-close tokens. -/
def headingTokens (level : Nat) (children : List Token) : List Token :=
  [Token.mk "heading_open" ("h" ++ toString level) 1 "" [] (hashMarkup level) 0 false false none none,
   Token.mk "inline" "" 0 "" children "" 0 false false none none,
   Token.mk "heading_close" ("h" ++ toString level) (-1) "" [] (hashMarkup level) 0 false false none none]

/-- `str.title()` restricted to a single word (the category names). -/
def titleCase (s : String) : String :=
  match s.toList with
  | [] => ""
  | c :: r => String.mk (c.toUpper :: r.map Char.toLower)

/-- The category field selected by `getattr(self, section)`. -/
def getCat (v : ChangelogVersion) (sec : String) : List Token :=
  if sec = "added" then v.added
  else if sec = "changed" then v.changed
  else if sec = "deprecated" then v.deprecated
  else if sec = "removed" then v.removed
  else if sec = "fixed" then v.fixed
  else if sec = "security" then v.security
  else []

/-- The `bullet_list_open` token emitted by `serialize`. -/
def blOpenTok : Token :=
  Token.mk "bullet_list_open" "ul" 1 "" [] "-" 0 true true none none

/-- The `bullet_list_close` token emitted by `serialize`. -/
def blCloseTok : Token :=
  Token.mk "bullet_list_close" "ul" (-1) "" [] "-" 0 true true none none

/-- `ChangelogVersion.serialize`: the `h2` heading (with an inline link using
`link` when set, otherwise a reference placeholder labelled by the version),
the notices verbatim, then each non-empty category in canonical order as an
`h3` heading plus a bullet list.  `if self.date:` is Python truthiness, so an
empty-string date is not emitted. -/
def serialize (v : ChangelogVersion) : List Token :=
  let linkOpen := match v.link with
    | some url => Token.mk "link_open" "a" 1 "" [] "" 0 false false (some url) none
    | none => Token.mk "link_open" "a" 1 "" [] "" 0 false false none (some v.version_str)
  let base := [linkOpen,
    Token.mk "text" "" 0 v.version_str [] "" 1 false false none none,
    Token.mk "link_close" "a" (-1) "" [] "" 0 false false none none]
  let headingChildren := base ++ (match v.date with
    | some d => if d = "" then [] else [Token.mk "text" "" 0 (" - " ++ d) [] "" 0 false false none none]
    | none => [])
  headingTokens 2 headingChildren ++ v.notices.flatten ++
    sectionOrder.flatMap (fun sec =>
      let items := getCat v sec
      if items.isEmpty then []
      else headingTokens 3 [Token.mk "text" "" 0 (titleCase sec) [] "" 0 false false none none] ++
        blOpenTok :: items ++ [blCloseTok])

/-- `version_to_tag_str` from `utils.py`: `f"v{version.lstrip('v')}"`
(all leading lowercase `v`s are stripped, then a single `v` is prepended). -/
def version_to_tag_str (version : String) : String :=
  "v" ++ String.mk (version.toList.dropWhile (fun c => c = 'v'))

/-- Insertion into the `refs` dict: overwrite an existing key in place,
otherwise append. -/
def dictInsert (acc : List (String × String)) (k v : String) : List (String × String) :=
  if (acc.lookup k).isSome then acc.map (fun p => if p.1 = k then (p.1, v) else p)
  else acc ++ [(k, v)]

/-- The tag of one release inside the render loop: `None` for the
Unreleased sentinel, else the derived tag (tags are never empty, so Python
truthiness of `prior_tag` is `Option.isSome`). -/
def tagOf (v : ChangelogVersion) : Option String :=
  if v.version_str = UNRELEASED_VERSION then none
  else some (version_to_tag_str v.version_str)

/-- The link target of one release inside the render loop, from the prior
release's tag and this release's tag. -/
def hrefFor (url : String) (prior thisTag : Option String) : String :=
  match prior with
  | some p => url ++ "/compare/" ++ p ++ "..." ++ thisTag.getD "HEAD"
  | none => match thisTag with
    | some t => url ++ "/releases/tag/" ++ t
    | none => url ++ "/commits/HEAD"

/-- The linkification loop of `Changelog.render`, over the releases in
oldest-to-newest order, tracking the previous release's tag.  Each entry's
value in the dict also carries `"title": ""`, constant and omitted here. -/
def refsGo (url : String) : List ChangelogVersion → Option String → List (String × String) → List (String × String)
  | [], _, acc => acc
  | v :: rest, prior, acc =>
    refsGo url rest (tagOf v) (dictInsert acc v.version_str (hrefFor url prior (tagOf v)))

/-- The reference-link table built by `Changelog.render`. -/
def refsFor (url : String) (versions : List ChangelogVersion) : List (String × String) :=
  refsGo url versions.reverse none []

/-- The full token stream handed to the external renderer by
`Changelog.render`: preamble, then each release serialized in stored order. -/
def Changelog.renderTokens (c : Changelog) : List Token :=
  c.header ++ c.versions.flatMap serialize

/-- The reference table handed to the external renderer by `Changelog.render`. -/
def Changelog.renderRefs (c : Changelog) : List (String × String) :=
  refsFor c.repo_url c.versions

/-! ## `Changelog.update_version` -/

/-- `datetime.date`, with `isoformat` producing zero-padded `YYYY-MM-DD`. -/
structure PyDate where
  year : Nat
  month : Nat
  day : Nat

/-- Zero-pad a numeral to the given width. -/
def padNum (width n : Nat) : String :=
  let s := toString n
  String.mk (List.replicate (width - s.length) '0') ++ s

/-- `date.isoformat()`. -/
def PyDate.isoformat (d : PyDate) : String :=
  padNum 4 d.year ++ "-" ++ padNum 2 d.month ++ "-" ++ padNum 2 d.day

/-- `Changelog.update_version`: insert a blank Unreleased entry at index 0
when the list is empty or does not start with the sentinel, then overwrite
the first entry's version and date in place. -/
def update_version (c : Changelog) (next_version : String) (date : PyDate) : Changelog :=
  let needsInsert := match c.versions with
    | [] => true
    | v :: _ => v.version_str ≠ UNRELEASED_VERSION
  let versions1 := if needsInsert then ChangelogVersion.blank_unreleased :: c.versions else c.versions
  match versions1 with
  | [] => c
  | v :: rest =>
    { c with versions := { v with version_str := next_version, date := some date.isoformat } :: rest }

/-- `consumeExact n ts`: starting from nesting `n`, the pop-until-zero loop
consumes exactly `ts` (the running sum first reaches zero at the last token). -/
def consumeExact (n : Int) : List Token → Bool
  | [] => false
  | t :: rest => if n + t.nesting = 0 then rest.isEmpty else consumeExact (n + t.nesting) rest

/-- Running nesting total over a token run. -/
def runNest (n : Int) : List Token → Int
  | [] => n
  | t :: rest => runNest (n + t.nesting) rest

/-- Starting from nesting `n`, the running sum stays strictly positive over
all of `ts`. -/
def itemsBalanced : Int → List Token → Bool
  | _, [] => true
  | n, t :: rest => decide (0 < n + t.nesting) && itemsBalanced (n + t.nesting) rest

/-- A well-formed run of list-item tokens as stored in a category: the
nesting never closes the surrounding bullet list and returns to depth 1. -/
def itemsShape (items : List Token) : Bool :=
  itemsBalanced 1 items && (runNest 1 items == 1)

/-! ## Canonical release headings and the regex matchers -/

/-- Characters allowed in a canonical release label (semantic versions and
the `Unreleased` sentinel): alphanumerics, `.`, `-`. -/
def labelChar (c : Char) : Bool :=
  c.isAlphanum || c = '.' || c = '-'

/-- A canonical release label: non-empty, made of label characters, and not
starting with `v`/`V` plus digit (which the parser would strip). -/
def labelOK (l : String) : Bool :=
  !l.isEmpty && l.toList.all labelChar && !leadingV l

/-- A canonical release date: absent, or a non-empty run of digits and `-`. -/
def dateOK : Option String → Bool
  | none => true
  | some d => !d.isEmpty && d.toList.all (fun c => c.isDigit || c = '-')

/-- The inline heading content of a canonical release section. -/
def headContent (l : String) (d : Option String) : String :=
  "[" ++ l ++ "]" ++ (match d with | some dd => " - " ++ dd | none => "")

/-- The characters of the canonical content after the closing `]`. -/
def headTail : Option String → List Char
  | none => []
  | some d => ' ' :: '-' :: ' ' :: d.toList

/-! ## Canonical release sections (the image of the serializer, re-tokenized) -/

/-- A canonical release section, as structured data. -/
structure CanonVersion where
  label : String
  date : Option String := none
  notices : List (List Token) := []
  added : List Token := []
  changed : List Token := []
  deprecated : List Token := []
  removed : List Token := []
  fixed : List Token := []
  security : List Token := []

/-- The six category buckets of a canonical section, canonical order, with
the empty ones stripped (as both parse and serialize leave them). -/
def canonCats (v : CanonVersion) : List (String × List Token) :=
  ([("added", v.added), ("changed", v.changed), ("deprecated", v.deprecated),
    ("removed", v.removed), ("fixed", v.fixed), ("security", v.security)]).filter
    (fun p => !p.2.isEmpty)

/-- A plain stream token with no children and default extras. -/
def cTok (ty tg : String) (n : Int) (c : String) (mk : String) : Token :=
  Token.mk ty tg n c [] mk 0 false false none none

def h2OpenTok : Token := cTok "heading_open" "h2" 1 "" "##"

def h2CloseTok : Token := cTok "heading_close" "h2" (-1) "" "##"

def h3OpenTok : Token := cTok "heading_open" "h3" 1 "" "###"

def h3CloseTok : Token := cTok "heading_close" "h3" (-1) "" "###"

def cInline (c : String) : Token := cTok "inline" "" 0 c ""

def blOpenC : Token := cTok "bullet_list_open" "ul" 1 "" "-"

def blCloseC : Token := cTok "bullet_list_close" "ul" (-1) "" "-"

/-- The token run of one category block in a canonical section. -/
def catBlockC (name : String) (items : List Token) : List Token :=
  [h3OpenTok, cInline name, h3CloseTok, blOpenC] ++ items ++ [blCloseC]

/-- The token stream of one canonical release section. -/
def CanonVersion.toTokens (v : CanonVersion) : List Token :=
  [h2OpenTok, cInline (headContent v.label v.date), h2CloseTok] ++
  v.notices.flatten ++
  (canonCats v).flatMap (fun p => catBlockC (titleCase p.1) p.2)

/-- The release model a canonical section denotes (the url of a linked
heading is discarded by the parser, so `link` is always `none`). -/
def CanonVersion.model (v : CanonVersion) : ChangelogVersion :=
  { version_str := v.label, date := v.date, link := none, notices := v.notices,
    added := v.added, changed := v.changed, deprecated := v.deprecated,
    removed := v.removed, fixed := v.fixed, security := v.security }

/-- Well-formed stored notice: a nesting-exact paragraph block containing no
horizontal rule and no heading-open token. -/
def noticeOK (nt : List Token) : Bool :=
  (match nt.head? with | some t => t.type == "paragraph_open" | none => false) &&
  consumeExact 0 nt &&
  nt.all (fun t => t.type ≠ "hr" && t.type ≠ "heading_open")

/-- Well-formed stored category items: nesting-positive runs free of
horizontal rules and heading-open tokens. -/
def itemsOKC (items : List Token) : Bool :=
  itemsShape items && items.all (fun t => t.type ≠ "hr" && t.type ≠ "heading_open")

/-- Well-formedness of a canonical release section. -/
def CanonVersion.WF (v : CanonVersion) : Bool :=
  labelOK v.label && dateOK v.date && v.notices.all noticeOK &&
  (canonCats v).all (fun p => itemsOKC p.2)

/-- The six category buckets before empty-stripping. -/
def sixPairs (v : CanonVersion) : List (String × List Token) :=
  [("added", v.added), ("changed", v.changed), ("deprecated", v.deprecated),
   ("removed", v.removed), ("fixed", v.fixed), ("security", v.security)]

/-! ## Document splitting on canonical streams -/

/-- A token that the pairwise walk appends to the current group unchanged:
anything that is not a heading-open, an `h1` heading-open whose following
content is not version-like, or an `h3`-or-deeper heading-open. -/
def inertTokB (t : Token) (next? : Option Token) : Bool :=
  if t.type = "heading_open" then
    if t.tag = "h1" then
      (match next? with
       | some n => !wrongH1 n.content
       | none => false)
    else if t.tag = "h2" then false
    else true
  else true

/-- Every token of a chain is inert, where each token's lookahead is its
successor in the chain or, for the last one, `after`. -/
def inertChainB : List Token → Option Token → Bool
  | [], _ => true
  | t :: rest, after =>
    inertTokB t (match rest.head? with | some r => some r | none => after) &&
    inertChainB rest after

/-! ## Canonical documents -/

/-- A canonical changelog document: preamble tokens plus release sections. -/
structure CanonDoc where
  header : List Token
  vers : List CanonVersion

/-- The token stream of a canonical document (what the external tokenizer
produces for it). -/
def CanonDoc.toTokens (doc : CanonDoc) : List Token :=
  doc.header ++ (doc.vers.map CanonVersion.toTokens).flatten

/-- Well-formedness of a canonical document: the preamble contains no `hr`
tags, no release-level headings (each heading-open is a non-version `h1` or
`h3`-or-deeper), and there is at least one well-formed release section. -/
def CanonDoc.WF (doc : CanonDoc) : Bool :=
  inertChainB doc.header ((doc.vers.map CanonVersion.toTokens).flatten.head?) &&
  doc.header.all (fun t => t.tag ≠ "hr") &&
  !doc.vers.isEmpty &&
  doc.vers.all CanonVersion.WF

/-- The parsed model of a canonical document. -/
def CanonDoc.model (doc : CanonDoc) (url : String) : Changelog :=
  ⟨url, doc.header, doc.vers.map CanonVersion.model⟩

/-- Example document for `malformed_rejection`: a lone `h1` title with a
paragraph and no release headings. -/
def c7ex : List Token :=
  [cTok "heading_open" "h1" 1 "" "#", cInline "Changelog",
   cTok "heading_close" "h1" (-1) "" "#",
   cTok "paragraph_open" "p" 1 "" "", cInline "All notable changes.",
   cTok "paragraph_close" "p" (-1) "" ""]

/-- Example entries for the `update_version` theorems. -/
def itemTok : Token := cTok "list_item_open" "li" 1 "" "-"

def unrelEx : ChangelogVersion :=
  { version_str := "Unreleased", changed := [itemTok], link := some "https://x/y" }

def relEx : ChangelogVersion :=
  { version_str := "1.0.0", date := some "2020-01-01", fixed := [itemTok] }

def chEx : Changelog :=
  ⟨"https://example.com/r", [cInline "preamble"], [unrelEx, relEx]⟩

/-- Items of the example category block for the C4 counterexample. -/
def c4items : List Token :=
  [itemTok, cInline "some change", cTok "list_item_close" "li" (-1) "" "-"]

/-- Example release section whose single category heading is `Update`. -/
def c4ex : List Token :=
  [h2OpenTok, cInline "[1.0.0]", h2CloseTok] ++ catBlockC "Update" c4items

/-- Items of the witness category blocks for `alias_normalization`. -/
def c4w : List Token :=
  [itemTok, cInline "w", cTok "list_item_close" "li" (-1) "" "-"]

/-- Items of the example category block for the C5 counterexample. -/
def c5items : List Token :=
  [itemTok, cInline "mystery", cTok "list_item_close" "li" (-1) "" "-"]

/-- Example release section whose single category heading is `Foo`. -/
def c5ex : List Token :=
  [h2OpenTok, cInline "[2.0.0]", h2CloseTok] ++ catBlockC "Foo" c5items

/-- Spec-side restatement of `serialize` for the stripping claim: the same
heading and notices, but the categories are explicitly filtered to the
non-empty ones before being emitted. -/
def serializeFiltered (v : ChangelogVersion) : List Token :=
  let linkOpen := match v.link with
    | some url => Token.mk "link_open" "a" 1 "" [] "" 0 false false (some url) none
    | none => Token.mk "link_open" "a" 1 "" [] "" 0 false false none (some v.version_str)
  let base := [linkOpen,
    Token.mk "text" "" 0 v.version_str [] "" 1 false false none none,
    Token.mk "link_close" "a" (-1) "" [] "" 0 false false none none]
  let headingChildren := base ++ (match v.date with
    | some d => if d = "" then [] else [Token.mk "text" "" 0 (" - " ++ d) [] "" 0 false false none none]
    | none => [])
  headingTokens 2 headingChildren ++ v.notices.flatten ++
    (sectionOrder.filter (fun sec => !(getCat v sec).isEmpty)).flatMap (fun sec =>
      headingTokens 3 [Token.mk "text" "" 0 (titleCase sec) [] "" 0 false false none none] ++
        blOpenTok :: getCat v sec ++ [blCloseTok])

/-- The claim's example document with the release heading written as `h1`. -/
def c6dH1 : List Token :=
  [cTok "heading_open" "h1" 1 "" "#", cInline "[1.0.0] - 2020-01-01",
   cTok "heading_close" "h1" (-1) "" "#"]

/-- The same document with the release heading correctly written as `h2`. -/
def c6dH2 : List Token :=
  [h2OpenTok, cInline "[1.0.0] - 2020-01-01", h2CloseTok]

/-- A document whose single `h1` heading text starts with a bare digit. -/
def c6bad : List Token :=
  [cTok "heading_open" "h1" 1 "" "#", cInline "1.0.0 - 2020-01-01",
   cTok "heading_close" "h1" (-1) "" "#"]

/-- Spec-side description of the reference-link table: scan the releases
oldest to newest threading the prior release's tag; the first scanned entry
gets `releases/tag/<tag>` when real and `commits/HEAD` when Unreleased, and
every later entry gets `compare/<priorTag>...<thisTagOrHEAD>`. -/
def linksList (url : String) : List ChangelogVersion → Option String → List (String × String)
  | [], _ => []
  | v :: rest, prior =>
    (v.version_str, hrefFor url prior (tagOf v)) :: linksList url rest (tagOf v)

/-- The claim's example release list, newest first as stored. -/
def c2ex : List ChangelogVersion :=
  [{ version_str := "Unreleased" }, { version_str := "2.0.0" }, { version_str := "1.0.0" }]

/-- A minimal canonical document: empty preamble and one release. -/
def c1doc : CanonDoc :=
  ⟨[], [{ label := "1.0.0" }]⟩

/-! ## Theorems -/

/-! ## Basic facts about the consumption helpers -/

theorem popBalanced_append (n : Int) (ts : List Token) :
    (popBalanced n ts).1 ++ (popBalanced n ts).2 = ts := by
  induction ts generalizing n with
  | nil => simp [popBalanced]
  | cons t rest ih =>
    simp only [popBalanced]
    split
    · simp
    · simpa using ih (n + t.nesting)

theorem popBalanced_ne_nil (n : Int) (t : Token) (rest : List Token) :
    (popBalanced n (t :: rest)).1 ≠ [] := by
  simp only [popBalanced]
  split <;> simp

theorem popBalanced_length (n : Int) (t : Token) (rest : List Token) :
    (popBalanced n (t :: rest)).2.length < (t :: rest).length := by
  have h := congrArg List.length (popBalanced_append n (t :: rest))
  rw [List.length_append] at h
  have h2 := popBalanced_ne_nil n t rest
  have : 0 < (popBalanced n (t :: rest)).1.length := List.length_pos.mpr h2
  omega

theorem parseHeadingF_rest {ts : List Token} {tg : String} {inl : Token} {rest : List Token}
    (h : parseHeadingF ts = .ok ((tg, inl), rest)) : rest.length + 3 = ts.length := by
  unfold parseHeadingF at h
  split at h
  · split at h
    · rename_i a b c r _
      simp_all
    · exact absurd h (by simp)
  · exact absurd h (by simp)

theorem parseBulletList_length {ts items rest : List Token}
    (h : parseBulletList ts = .okL items rest) : rest.length < ts.length := by
  unfold parseBulletList at h
  split at h
  · exact absurd h (by simp)
  · rename_i t r
    split at h
    · simp only at h
      split at h
      · split at h
        · have hlen := popBalanced_length 0 t r
          simp only [BLRes.okL.injEq] at h
          obtain ⟨h1, h2⟩ := h
          subst h2
          exact hlen
        · exact absurd h (by simp)
      · exact absurd h (by simp)
    · exact absurd h (by simp)

theorem consumeGo_fuel (f1 : Nat) : ∀ (f2 : Nat) (kw : Kwargs) (ts : List Token),
    ts.length ≤ f1 → ts.length ≤ f2 → consumeGo f1 kw ts = consumeGo f2 kw ts := by
  induction f1 with
  | zero =>
    intro f2 kw ts h1 _
    have hts : ts = [] := List.length_eq_zero.mp (Nat.le_zero.mp h1)
    subst hts
    cases f2 <;> rfl
  | succ n ih =>
    intro f2 kw ts h1 h2
    match ts with
    | [] => cases f2 <;> rfl
    | t :: rest =>
      match f2 with
      | 0 => simp at h2
      | m + 1 =>
        simp only [List.length_cons] at h1 h2
        simp only [consumeGo]
        split
        · cases hph : parseHeadingF (t :: rest) with
          | error e => rfl
          | ok pr =>
            obtain ⟨⟨tg, inl⟩, rest2⟩ := pr
            have hlen2 : rest2.length + 3 = (t :: rest).length := parseHeadingF_rest hph
            simp only [List.length_cons] at hlen2
            dsimp only
            cases hbl : parseBulletList rest2 with
            | emptyErr => exact ih m kw rest2 (by omega) (by omega)
            | malformed => rfl
            | okL items rest3 =>
              have hlen3 := parseBulletList_length hbl
              dsimp only
              split
              · rfl
              · split
                · rfl
                · exact ih m _ rest3 (by omega) (by omega)
        · split
          · have hp := popBalanced_length 0 t rest
            simp only [List.length_cons] at hp
            exact ih m _ _ (by omega) (by omega)
          · split
            · cases hbl : parseBulletList (t :: rest) with
              | emptyErr => rfl
              | malformed => rfl
              | okL items rest3 =>
                have hlen3 := parseBulletList_length hbl
                simp only [List.length_cons] at hlen3
                dsimp only
                exact ih m _ rest3 (by omega) (by omega)
            · rfl

theorem consumeGo_no_leftover (fuel : Nat) : ∀ (kw : Kwargs) (ts : List Token)
    (kw2 : Kwargs) (left : List Token), ts.length ≤ fuel →
    consumeGo fuel kw ts = .ok (kw2, left) → left = [] := by
  induction fuel with
  | zero =>
    intro kw ts kw2 left h1 h2
    have hts : ts = [] := List.length_eq_zero.mp (Nat.le_zero.mp h1)
    subst hts
    simp only [consumeGo, Except.ok.injEq, Prod.mk.injEq] at h2
    exact h2.2.symm
  | succ n ih =>
    intro kw ts kw2 left h1 h2
    match ts with
    | [] =>
      simp only [consumeGo, Except.ok.injEq, Prod.mk.injEq] at h2
      exact h2.2.symm
    | t :: rest =>
      simp only [List.length_cons] at h1
      simp only [consumeGo] at h2
      split at h2
      · cases hph : parseHeadingF (t :: rest) with
        | error e => rw [hph] at h2; exact absurd h2 (by simp)
        | ok pr =>
          obtain ⟨⟨tg, inl⟩, rest2⟩ := pr
          rw [hph] at h2
          have hlen2 : rest2.length + 3 = (t :: rest).length := parseHeadingF_rest hph
          simp only [List.length_cons] at hlen2
          dsimp only at h2
          cases hbl : parseBulletList rest2 with
          | emptyErr => rw [hbl] at h2; exact ih kw rest2 kw2 left (by omega) h2
          | malformed => rw [hbl] at h2; exact absurd h2 (by simp)
          | okL items rest3 =>
            have hlen3 := parseBulletList_length hbl
            rw [hbl] at h2
            dsimp only at h2
            split at h2
            · exact absurd h2 (by simp)
            · split at h2
              · exact absurd h2 (by simp)
              · exact ih _ rest3 kw2 left (by omega) h2
      · split at h2
        · have hp := popBalanced_length 0 t rest
          simp only [List.length_cons] at hp
          exact ih _ _ kw2 left (by omega) h2
        · split at h2
          · cases hbl : parseBulletList (t :: rest) with
            | emptyErr => rw [hbl] at h2; exact absurd h2 (by simp)
            | malformed => rw [hbl] at h2; exact absurd h2 (by simp)
            | okL items rest3 =>
              have hlen3 := parseBulletList_length hbl
              simp only [List.length_cons] at hlen3
              rw [hbl] at h2
              dsimp only at h2
              exact ih _ rest3 kw2 left (by omega) h2
          · exact absurd h2 (by simp)

theorem popBalanced_exact : ∀ (ts : List Token) (n : Int) (rest : List Token),
    consumeExact n ts = true → popBalanced n (ts ++ rest) = (ts, rest) := by
  intro ts
  induction ts with
  | nil => intro n rest h; simp [consumeExact] at h
  | cons t tr ih =>
    intro n rest h
    simp only [consumeExact] at h
    simp only [List.cons_append, popBalanced]
    split
    · rename_i hz
      rw [if_pos hz] at h
      have : tr = [] := by simpa [List.isEmpty_iff] using h
      subst this
      simp
    · rename_i hz
      rw [if_neg hz] at h
      simp [ih _ rest h]

theorem consumeExact_of_items : ∀ (its : List Token) (n : Int) (cl : Token),
    itemsBalanced n its = true → cl.nesting = -(runNest n its) →
    consumeExact n (its ++ [cl]) = true := by
  intro its
  induction its with
  | nil =>
    intro n cl _ hcl
    simp only [runNest] at hcl
    simp [consumeExact, hcl]
  | cons t tr ih =>
    intro n cl hbal hcl
    simp only [itemsBalanced, Bool.and_eq_true, decide_eq_true_eq] at hbal
    simp only [runNest] at hcl
    simp only [List.cons_append, consumeExact]
    rw [if_neg (by omega)]
    exact ih _ cl hbal.2 hcl

theorem parseBulletList_canon (bo : Token) (items : List Token) (bc : Token) (rest : List Token)
    (hbo : bo.type = "bullet_list_open") (hbon : bo.nesting = 1)
    (hbc : bc.type = "bullet_list_close") (hbcn : bc.nesting = -1)
    (hitems : itemsShape items = true) :
    parseBulletList (bo :: (items ++ bc :: rest)) = .okL items rest := by
  simp only [itemsShape, Bool.and_eq_true, beq_iff_eq] at hitems
  have h1 : (0 : Int) + bo.nesting = 1 := by rw [hbon]; norm_num
  have hex : consumeExact 0 (bo :: (items ++ [bc])) = true := by
    simp only [consumeExact]
    rw [if_neg (by omega), h1]
    exact consumeExact_of_items items 1 bc hitems.1 (by rw [hbcn, hitems.2])
  have hpop : popBalanced 0 (bo :: (items ++ bc :: rest)) = (bo :: (items ++ [bc]), rest) := by
    have hp := popBalanced_exact (bo :: (items ++ [bc])) 0 rest hex
    simpa using hp
  simp only [parseBulletList]
  rw [if_pos hbo]
  simp only [hpop, List.head?_cons]
  have hlast : (bo :: (items ++ [bc])).getLast? = some bc := by
    rw [show bo :: (items ++ [bc]) = (bo :: items) ++ [bc] by simp]
    exact List.getLast?_concat _
  rw [hlast]
  simp [hbo, hbc, List.dropLast_concat]

theorem consumeLoop_eq (kw : Kwargs) (ts : List Token) (fuel : Nat) (h : ts.length ≤ fuel) :
    consumeLoop kw ts = consumeGo fuel kw ts :=
  consumeGo_fuel ts.length fuel kw ts le_rfl h

/-- Consuming one category block (`h3` heading triple plus bullet list):
one iteration of the `from_tokens` loop, extending the kwargs entry for the
normalized heading name. -/
theorem consumeLoop_catblock (kw : Kwargs) (ho hi hc bo bc : Token) (items rest : List Token)
    (hho : ho.type = "heading_open") (hhi : hi.type = "inline")
    (hbo : bo.type = "bullet_list_open") (hbon : bo.nesting = 1)
    (hbc : bc.type = "bullet_list_close") (hbcn : bc.nesting = -1)
    (hitems : itemsShape items = true)
    (h1 : normalizeHeading hi.content ≠ "version_str")
    (h2 : normalizeHeading hi.content ≠ "date")
    (h3 : normalizeHeading hi.content ≠ "link")
    (h4 : normalizeHeading hi.content ≠ "notices") :
    consumeLoop kw (ho :: hi :: hc :: bo :: (items ++ bc :: rest)) =
      consumeLoop (kw.extendExtra (normalizeHeading hi.content) items) rest := by
  have hlen : (ho :: hi :: hc :: bo :: (items ++ bc :: rest)).length
      = items.length + rest.length + 5 := by
    simp [List.length_append]
    omega
  rw [consumeLoop_eq kw _ (items.length + rest.length + 4 + 1) (by omega)]
  simp only [consumeGo]
  rw [if_pos hho]
  have hph : parseHeadingF (ho :: hi :: hc :: bo :: (items ++ bc :: rest))
      = .ok ((ho.tag, hi), bo :: (items ++ bc :: rest)) := by
    simp [parseHeadingF, hho, hhi]
  rw [hph]
  dsimp only
  rw [parseBulletList_canon bo items bc rest hbo hbon hbc hbcn hitems]
  dsimp only
  rw [if_neg (by simp [h1, h2]), if_neg (by simp [h3, h4])]
  rw [← consumeLoop_eq _ rest _ (by omega)]

/-- Consuming one notice (a balanced paragraph block): one iteration of the
`from_tokens` loop, appending the block to the notices. -/
theorem consumeLoop_notice (kw : Kwargs) (p : Token) (body rest : List Token)
    (hp : p.type = "paragraph_open")
    (hex : consumeExact 0 (p :: body) = true) :
    consumeLoop kw (p :: (body ++ rest)) = consumeLoop (kw.addNotice (p :: body)) rest := by
  have hlen : (p :: (body ++ rest)).length = body.length + rest.length + 1 := by
    simp [List.length_append]
  rw [consumeLoop_eq kw _ (body.length + rest.length + 1) (by omega)]
  simp only [consumeGo]
  rw [if_neg (by rw [hp]; decide), if_pos hp]
  have hpop : popBalanced 0 (p :: (body ++ rest)) = (p :: body, rest) := by
    have hq := popBalanced_exact (p :: body) 0 rest hex
    simpa using hq
  simp only [hpop]
  rw [← consumeLoop_eq _ rest _ (by omega)]

/-- A category heading with no following bullet list (`EmptyListError`):
the heading triple is consumed and the kwargs are unchanged. -/
theorem consumeLoop_emptyHeading (kw : Kwargs) (ho hi hc : Token) (rest : List Token)
    (hho : ho.type = "heading_open") (hhi : hi.type = "inline")
    (hrest : match rest.head? with
      | some r => r.type ≠ "bullet_list_open"
      | none => True) :
    consumeLoop kw (ho :: hi :: hc :: rest) = consumeLoop kw rest := by
  have hlen : (ho :: hi :: hc :: rest).length = rest.length + 3 := by simp
  rw [consumeLoop_eq kw _ (rest.length + 2 + 1) (by omega)]
  simp only [consumeGo]
  rw [if_pos hho]
  have hph : parseHeadingF (ho :: hi :: hc :: rest) = .ok ((ho.tag, hi), rest) := by
    simp [parseHeadingF, hho, hhi]
  rw [hph]
  dsimp only
  have hbl : parseBulletList rest = .emptyErr := by
    match rest, hrest with
    | [], _ => rfl
    | r :: rr, hr =>
      simp only [List.head?_cons] at hr
      simp [parseBulletList, hr]
  rw [hbl]
  rw [← consumeLoop_eq _ rest _ (by omega)]

theorem isPySpace_cases {c : Char} (h : isPySpace c = true) :
    c = ' ' ∨ c = '\t' ∨ c = '\n' ∨ c = '\r' ∨ c = '\x0b' ∨ c = '\x0c' := by
  simp only [isPySpace, Bool.or_eq_true, decide_eq_true_eq] at h
  tauto

theorem labelChar_not_space {c : Char} (h : labelChar c = true) : isPySpace c = false := by
  cases hc : isPySpace c
  · rfl
  · rcases isPySpace_cases hc with h1 | h1 | h1 | h1 | h1 | h1 <;> subst h1 <;>
      exact absurd h (by decide)

theorem labelChar_ne_rbracket {c : Char} (h : labelChar c = true) : c ≠ ']' := by
  intro he
  subst he
  exact absurd h (by decide)

theorem labelChar_ne_paren {c : Char} (h : labelChar c = true) : c ≠ '(' := by
  intro he
  subst he
  exact absurd h (by decide)

theorem dateChar_not_space {c : Char} (h : (c.isDigit || c = '-') = true) :
    isPySpace c = false := by
  cases hc : isPySpace c
  · rfl
  · rcases isPySpace_cases hc with h1 | h1 | h1 | h1 | h1 | h1 <;> subst h1 <;>
      exact absurd h (by decide)

theorem headContent_toList (l : String) (d : Option String) :
    (headContent l d).toList = '[' :: (l.toList ++ ']' :: headTail d) := by
  cases d with
  | none => simp [headContent, headTail, String.toList, String.data_append]
  | some dd => simp [headContent, headTail, String.toList, String.data_append]

theorem tailMatch_canon (d : Option String) (hd : dateOK d = true) :
    tailMatchL (headTail d) = some (d.map String.toList) := by
  cases d with
  | none => rfl
  | some dd =>
    simp only [dateOK, Bool.and_eq_true, Bool.not_eq_true'] at hd
    obtain ⟨hne, hchars⟩ := hd
    have hddrop : dd.toList.dropWhile isPySpace = dd.toList := by
      match hdd : dd.toList with
      | [] => rfl
      | c :: cs =>
        have hc : (c.isDigit || c = '-') = true := by
          have := List.all_eq_true.mp hchars c (by rw [hdd]; exact List.mem_cons_self c cs)
          simpa using this
        simp [List.dropWhile_cons, dateChar_not_space hc]
    show tailMatchL (' ' :: '-' :: ' ' :: dd.toList) = some (some dd.toList)
    have d1 : isPySpace '-' = false := by decide
    have d2 : isPySpace ' ' = true := by decide
    simp only [tailMatchL, List.takeWhile_cons, List.dropWhile_cons, d1, d2, hddrop,
      if_true, if_false, List.isEmpty_cons, Bool.false_eq_true, ite_false, ite_true]

theorem tailMatchL_nonspace {c : Char} (cs : List Char) (h : isPySpace c = false) :
    tailMatchL (c :: cs) = none := by
  simp [tailMatchL, List.takeWhile_cons, h]

theorem hrGo_label : ∀ (l acc tail : List Char) (res : Option (List Char)),
    l.all labelChar = true → tailMatchL tail = some res →
    hrGo acc (l ++ ']' :: tail) = some (acc.reverse ++ l, res) := by
  intro l
  induction l with
  | nil =>
    intro acc tail res _ ht
    simp only [List.nil_append, hrGo]
    simp [ht]
  | cons c l' ih =>
    intro acc tail res hall ht
    simp only [List.all_cons, Bool.and_eq_true] at hall
    have hc := hall.1
    have hnb : c ≠ ']' := labelChar_ne_rbracket hc
    have hns : isPySpace c = false := labelChar_not_space hc
    simp only [List.cons_append, hrGo]
    rw [if_neg hnb, tailMatchL_nonspace _ hns]
    simp only [List.append_eq]
    rw [ih (c :: acc) tail res hall.2 ht]
    simp

theorem dateChar_ne_paren {c : Char} (h : (c.isDigit || c = '-') = true) : c ≠ '(' := by
  intro he
  subst he
  exact absurd h (by decide)

theorem mlhV_none : ∀ (cs : List Char) (acc : List Char),
    cs.all (fun c => c ≠ '(') = true → mlhV acc cs = none := by
  intro cs
  induction cs with
  | nil => intro acc _; rfl
  | cons c rest ih =>
    intro acc hall
    simp only [List.all_cons, Bool.and_eq_true, decide_eq_true_eq] at hall
    simp only [mlhV]
    split
    · exfalso
      simp [List.all_cons] at hall
    · exact ih (c :: acc) hall.2

theorem toList_ne_nil_of_not_empty {l : String} (h : l.isEmpty = false) : l.toList ≠ [] := by
  intro he
  have h2 : l = "" := by
    obtain ⟨dataL⟩ := l
    simp only [String.toList] at he
    subst he
    rfl
  subst h2
  exact absurd h (by decide)

theorem headingMatch_canon (l : String) (d : Option String)
    (hl : labelOK l = true) (hd : dateOK d = true) :
    headingMatch (headContent l d) = some (l, d) := by
  simp only [labelOK, Bool.and_eq_true, Bool.not_eq_true'] at hl
  obtain ⟨⟨hne, hchars⟩, hlv⟩ := hl
  have hlall : ∀ c ∈ l.toList, labelChar c = true := List.all_eq_true.mp hchars
  have hnp : (l.toList ++ ']' :: headTail d).all (fun c => c ≠ '(') = true := by
    rw [List.all_eq_true]
    intro x hx
    simp only [List.mem_append, List.mem_cons] at hx
    rcases hx with hx | hx | hx
    · simpa using labelChar_ne_paren (hlall x hx)
    · subst hx; decide
    · cases d with
      | none => simp [headTail] at hx
      | some dd =>
        simp only [headTail, List.mem_cons] at hx
        rcases hx with hx | hx | hx | hx
        · subst hx; decide
        · subst hx; decide
        · subst hx; decide
        · simp only [dateOK, Bool.and_eq_true] at hd
          have := List.all_eq_true.mp hd.2 x hx
          simpa using dateChar_ne_paren (by simpa using this)
  have hb : headingBody (l.toList ++ ']' :: headTail d)
      = some (l.toList, d.map String.toList) := by
    match hl0 : l.toList with
    | [] => exact absurd hl0 (toList_ne_nil_of_not_empty hne)
    | c :: l' =>
      simp only [List.cons_append, headingBody]
      have hall' : l'.all labelChar = true := by
        rw [List.all_eq_true]
        intro x hx
        exact hlall x (by rw [hl0]; exact List.mem_cons_of_mem c hx)
      rw [hrGo_label l' [c] (headTail d) (d.map String.toList) hall' (tailMatch_canon d hd)]
      simp
  unfold headingMatch
  rw [headContent_toList]
  have hml : matchLinkHeadingL ('[' :: (l.toList ++ ']' :: headTail d)) = none := by
    simp only [matchLinkHeadingL]
    exact mlhV_none _ [] hnp
  rw [hml]
  simp only [headingReL]
  rw [hb]
  cases d with
  | none => simp
  | some dd => simp

theorem consumeLoop_notices : ∀ (nts : List (List Token)) (kw : Kwargs) (rest : List Token),
    nts.all noticeOK = true →
    consumeLoop kw (nts.flatten ++ rest) = consumeLoop (nts.foldl Kwargs.addNotice kw) rest := by
  intro nts
  induction nts with
  | nil => intro kw rest _; simp
  | cons nt nts' ih =>
    intro kw rest hall
    simp only [List.all_cons, Bool.and_eq_true] at hall
    obtain ⟨hnt, hall'⟩ := hall
    simp only [noticeOK, Bool.and_eq_true] at hnt
    match nt, hnt with
    | [], ⟨⟨hhead, hex⟩, h3⟩ => simp at hhead
    | p :: body, ⟨⟨hhead, hex⟩, h3⟩ =>
      simp only [List.head?_cons, beq_iff_eq] at hhead
      have heq : ((p :: body) :: nts').flatten ++ rest
          = p :: (body ++ (nts'.flatten ++ rest)) := by simp
      rw [heq, consumeLoop_notice kw p body (nts'.flatten ++ rest) hhead hex, ih _ rest hall']
      simp [List.foldl_cons]

theorem normalize_titleCase_six : ∀ s ∈ sectionOrder, normalizeHeading (titleCase s) = s := by
  intro s hs
  simp only [sectionOrder, List.mem_cons, List.mem_singleton] at hs
  rcases hs with h | h | h | h | h | h | h
  all_goals first
    | (subst h; rfl)
    | (exact absurd h (by simp [List.mem_singleton]))

theorem six_not_collision : ∀ s ∈ sectionOrder,
    s ≠ "version_str" ∧ s ≠ "date" ∧ s ≠ "link" ∧ s ≠ "notices" := by
  intro s hs
  simp only [sectionOrder, List.mem_cons, List.mem_singleton] at hs
  rcases hs with h | h | h | h | h | h | h
  all_goals first
    | (subst h; exact ⟨by decide, by decide, by decide, by decide⟩)
    | (exact absurd h (by simp [List.mem_singleton]))

theorem consumeLoop_blocks : ∀ (ps : List (String × List Token)) (kw : Kwargs) (rest : List Token),
    (∀ p ∈ ps, p.1 ∈ sectionOrder ∧ itemsShape p.2 = true) →
    consumeLoop kw ((ps.flatMap (fun p => catBlockC (titleCase p.1) p.2)) ++ rest) =
      consumeLoop (ps.foldl (fun k p => k.extendExtra p.1 p.2) kw) rest := by
  intro ps
  induction ps with
  | nil => intro kw rest _; simp
  | cons p ps' ih =>
    intro kw rest hall
    obtain ⟨hsec, hshape⟩ := hall p (List.mem_cons_self p ps')
    have hall' : ∀ q ∈ ps', q.1 ∈ sectionOrder ∧ itemsShape q.2 = true :=
      fun q hq => hall q (List.mem_cons_of_mem p hq)
    have hnorm : normalizeHeading (cInline (titleCase p.1)).content = p.1 :=
      normalize_titleCase_six p.1 hsec
    have hcoll := six_not_collision p.1 hsec
    have heq : ((p :: ps').flatMap (fun p => catBlockC (titleCase p.1) p.2)) ++ rest
        = h3OpenTok :: cInline (titleCase p.1) :: h3CloseTok :: blOpenC ::
          (p.2 ++ blCloseC :: ((ps'.flatMap (fun p => catBlockC (titleCase p.1) p.2)) ++ rest)) := by
      simp [catBlockC]
    rw [heq]
    rw [consumeLoop_catblock kw h3OpenTok (cInline (titleCase p.1)) h3CloseTok blOpenC blCloseC
      p.2 _ rfl rfl rfl rfl rfl rfl hshape
      (by rw [hnorm]; exact hcoll.1)
      (by rw [hnorm]; exact hcoll.2.1)
      (by rw [hnorm]; exact hcoll.2.2.1)
      (by rw [hnorm]; exact hcoll.2.2.2)]
    rw [hnorm]
    rw [ih _ rest hall']
    simp [List.foldl_cons]

theorem foldl_addNotice (nts : List (List Token)) : ∀ (kw : Kwargs),
    nts.foldl Kwargs.addNotice kw = { kw with notices := kw.notices ++ nts } := by
  induction nts with
  | nil => intro kw; simp
  | cons nt nts' ih =>
    intro kw
    simp only [List.foldl_cons, ih, Kwargs.addNotice]
    simp

theorem lookup_none_of_not_mem_keys : ∀ (ps : List (String × List Token)) (k : String),
    k ∉ ps.map Prod.fst → ps.lookup k = none := by
  intro ps
  induction ps with
  | nil => intro k _; rfl
  | cons a ps' ih =>
    intro k hk
    obtain ⟨k1, v1⟩ := a
    simp only [List.map_cons, List.mem_cons] at hk
    push_neg at hk
    have hbe : (k == k1) = false := by simpa using hk.1
    simp only [List.lookup_cons, hbe]
    exact ih k hk.2

theorem lookup_append_left_none : ∀ (l1 l2 : List (String × List Token)) (k : String),
    l1.lookup k = none → (l1 ++ l2).lookup k = l2.lookup k := by
  intro l1
  induction l1 with
  | nil => intro l2 k _; rfl
  | cons a l1' ih =>
    intro l2 k h
    obtain ⟨k1, v1⟩ := a
    rw [List.lookup_cons] at h
    match hbe : k == k1 with
    | true => rw [hbe] at h; exact absurd h (by simp)
    | false =>
      rw [hbe] at h
      simp only at h
      rw [List.cons_append, List.lookup_cons, hbe]
      exact ih l2 k h

theorem foldl_extendExtra_fresh : ∀ (ps : List (String × List Token)) (kw : Kwargs),
    (∀ p ∈ ps, kw.extra.lookup p.1 = none) → (ps.map Prod.fst).Nodup →
    ps.foldl (fun k p => k.extendExtra p.1 p.2) kw = { kw with extra := kw.extra ++ ps } := by
  intro ps
  induction ps with
  | nil => intro kw _ _; simp
  | cons p ps' ih =>
    intro kw hfresh hnd
    simp only [List.map_cons, List.nodup_cons] at hnd
    have hp : kw.extra.lookup p.1 = none := hfresh p (List.mem_cons_self p ps')
    have hstep : kw.extendExtra p.1 p.2 = { kw with extra := kw.extra ++ [p] } := by
      simp [Kwargs.extendExtra, hp]
    simp only [List.foldl_cons, hstep]
    rw [ih _ ?fresh ?nodup]
    · simp
    case fresh =>
      intro q hq
      simp only []
      rw [lookup_append_left_none _ _ _ (hfresh q (List.mem_cons_of_mem p hq))]
      have hqne : q.1 ≠ p.1 := by
        intro he
        exact hnd.1 (he ▸ List.mem_map_of_mem Prod.fst hq)
      simp [List.lookup_cons, hqne]
    case nodup => exact hnd.2

theorem canonCats_eq (v : CanonVersion) :
    canonCats v = (sixPairs v).filter (fun p => !p.2.isEmpty) := rfl

theorem canonCats_keys_six (v : CanonVersion) : ∀ p ∈ canonCats v, p.1 ∈ sectionOrder := by
  intro p hp
  rw [canonCats_eq] at hp
  have hp2 := List.mem_of_mem_filter hp
  simp only [sixPairs, List.mem_cons, List.not_mem_nil, or_false] at hp2
  rcases hp2 with h | h | h | h | h | h
  all_goals (subst h; simp [sectionOrder])

theorem canonCats_keys_nodup (v : CanonVersion) : ((canonCats v).map Prod.fst).Nodup := by
  have hsub : (canonCats v).Sublist (sixPairs v) := by
    rw [canonCats_eq]
    exact List.filter_sublist _
  refine List.Nodup.sublist (hsub.map Prod.fst) ?_
  show (["added", "changed", "deprecated", "removed", "fixed", "security"] : List String).Nodup
  decide

theorem lookup_filter_getD : ∀ (ps : List (String × List Token)) (k : String),
    (ps.map Prod.fst).Nodup →
    (((ps.filter (fun p => !p.2.isEmpty)).lookup k).getD []) = ((ps.lookup k).getD []) := by
  intro ps
  induction ps with
  | nil => intro k _; rfl
  | cons a ps' ih =>
    intro k hnd
    obtain ⟨k1, v1⟩ := a
    simp only [List.map_cons, List.nodup_cons] at hnd
    match hbe : k == k1 with
    | true =>
      have hkk : k = k1 := by simpa using hbe
      subst hkk
      by_cases hv : v1.isEmpty
      · have hv1 : v1 = [] := by simpa [List.isEmpty_iff] using hv
        subst hv1
        simp only [List.filter_cons, List.lookup_cons, hbe]
        norm_num
        rw [lookup_none_of_not_mem_keys]
        · rfl
        · intro hmem
          exact hnd.1 (by
            have hsub : ((ps'.filter (fun p => !p.2.isEmpty)).map Prod.fst).Sublist
                (ps'.map Prod.fst) := (List.filter_sublist _).map Prod.fst
            exact hsub.mem hmem)
      · simp only [List.filter_cons]
        rw [if_pos (by simpa using hv)]
        simp only [List.lookup_cons, hbe]
    | false =>
      simp only [List.filter_cons]
      by_cases hv : (!v1.isEmpty) = true
      · rw [if_pos hv]
        simp only [List.lookup_cons, hbe]
        exact ih k hnd.2
      · rw [if_neg hv]
        simp only [List.lookup_cons, hbe]
        exact ih k hnd.2

theorem fromTokens_cons (t0 t1 t2 : Token) (rest4 : List Token)
    (h0 : t0.type = "heading_open") (h1 : t0.tag = "h2") (h2 : t1.type = "inline") :
    fromTokens (t0 :: t1 :: t2 :: rest4) =
      match headingMatch t1.content with
      | none => .error (.changelogError ("Invalid section heading: " ++ t1.content))
      | some (v0, d) =>
        match consumeLoop ⟨if leadingV v0 then String.mk (v0.toList.drop 1) else v0, d, [], []⟩
            (rest4.filter (fun t => t.type ≠ "hr")) with
        | .error e => .error e
        | .ok (kw, leftover) =>
          if leftover.isEmpty then mkVersion kw
          else .error (.changelogError "Leftover tokens!") := by
  simp [fromTokens, h0, h1, h2]

theorem mkVersion_canon (v : CanonVersion) :
    mkVersion ⟨v.label, v.date, v.notices, canonCats v⟩ = .ok v.model := by
  have hnd : ((sixPairs v).map Prod.fst).Nodup := by
    show (["added", "changed", "deprecated", "removed", "fixed", "security"] : List String).Nodup
    decide
  have hall : (canonCats v).all (fun p => sectionOrder.contains p.1) = true := by
    rw [List.all_eq_true]
    intro p hp
    have := canonCats_keys_six v p hp
    simpa [List.contains, List.elem_iff] using this
  unfold mkVersion
  rw [if_pos hall]
  have hlk : ∀ k : String, ((canonCats v).lookup k).getD [] = ((sixPairs v).lookup k).getD [] :=
    fun k => by rw [canonCats_eq]; exact lookup_filter_getD (sixPairs v) k hnd
  simp only [hlk]
  rfl

theorem canon_rest_no_hr (v : CanonVersion) (hnts : v.notices.all noticeOK = true)
    (hcats : (canonCats v).all (fun p => itemsOKC p.2) = true) :
    (v.notices.flatten ++ (canonCats v).flatMap (fun p => catBlockC (titleCase p.1) p.2)).filter
      (fun t => t.type ≠ "hr")
    = v.notices.flatten ++ (canonCats v).flatMap (fun p => catBlockC (titleCase p.1) p.2) := by
  rw [List.filter_eq_self]
  intro t ht
  simp only [List.mem_append] at ht
  rcases ht with ht | ht
  · obtain ⟨nt, hnt, htm⟩ := List.mem_flatten.mp ht
    have h1 := List.all_eq_true.mp hnts nt hnt
    simp only [noticeOK, Bool.and_eq_true] at h1
    have h2 := List.all_eq_true.mp h1.2 t htm
    simp only [Bool.and_eq_true, decide_eq_true_eq] at h2 ⊢
    exact h2.1
  · obtain ⟨p, hp, htm⟩ := List.mem_flatMap.mp ht
    have h1 := List.all_eq_true.mp hcats p hp
    simp only [itemsOKC, Bool.and_eq_true] at h1
    simp only [catBlockC, List.mem_append, List.mem_cons, List.not_mem_nil, or_false,
      List.mem_singleton] at htm
    simp only [decide_eq_true_eq]
    rcases htm with ((h | h | h | h) | h) | h
    · subst h; simp [h3OpenTok, cTok, Token.type]
    · subst h; simp [cInline, cTok, Token.type]
    · subst h; simp [h3CloseTok, cTok, Token.type]
    · subst h; simp [blOpenC, cTok, Token.type]
    · have h2 := List.all_eq_true.mp h1.2 t h
      simp only [Bool.and_eq_true, decide_eq_true_eq] at h2
      exact h2.1
    · subst h; simp [blCloseC, cTok, Token.type]

/-- Parsing a well-formed canonical release section recovers its model. -/
theorem fromTokens_canon (v : CanonVersion) (hwf : v.WF = true) :
    fromTokens v.toTokens = .ok v.model := by
  simp only [CanonVersion.WF, Bool.and_eq_true] at hwf
  obtain ⟨⟨⟨hl, hd⟩, hnts⟩, hcats⟩ := hwf
  have hstream : v.toTokens = h2OpenTok :: cInline (headContent v.label v.date) :: h2CloseTok ::
      (v.notices.flatten ++ (canonCats v).flatMap (fun p => catBlockC (titleCase p.1) p.2)) := by
    simp [CanonVersion.toTokens]
  rw [hstream, fromTokens_cons h2OpenTok (cInline (headContent v.label v.date)) h2CloseTok _
    rfl rfl rfl]
  rw [show (cInline (headContent v.label v.date)).content = headContent v.label v.date from rfl]
  rw [headingMatch_canon v.label v.date hl hd]
  simp only []
  have hlv : leadingV v.label = false := by
    simp only [labelOK, Bool.and_eq_true, Bool.not_eq_true'] at hl
    exact hl.2
  rw [if_neg (by rw [hlv]; simp)]
  rw [canon_rest_no_hr v hnts hcats]
  rw [consumeLoop_notices v.notices ⟨v.label, v.date, [], []⟩ _ hnts]
  rw [← List.append_nil ((canonCats v).flatMap fun p => catBlockC (titleCase p.1) p.2)]
  rw [consumeLoop_blocks (canonCats v) _ []
    (fun p hp => ⟨canonCats_keys_six v p hp, by
      have := List.all_eq_true.mp hcats p hp
      simp only [itemsOKC, Bool.and_eq_true] at this
      exact this.1⟩)]
  rw [foldl_addNotice]
  simp only [List.nil_append]
  have hfold := foldl_extendExtra_fresh (canonCats v)
    ⟨v.label, v.date, v.notices, []⟩ (fun p _ => rfl) (canonCats_keys_nodup v)
  rw [hfold]
  simp only [List.nil_append, List.append_nil]
  rw [show consumeLoop ⟨v.label, v.date, v.notices, canonCats v⟩ [] =
    .ok (⟨v.label, v.date, v.notices, canonCats v⟩, []) from rfl]
  simp only [List.isEmpty_nil, if_true]
  exact mkVersion_canon v

theorem step_inert (t : Token) (next? : Option Token) (h : inertTokB t next? = true) :
    step t next? = .ok (t, false) := by
  unfold inertTokB at h
  unfold step
  split at h
  · rename_i hty
    rw [if_pos hty]
    split at h
    · rename_i htag
      rw [if_pos htag]
      match next?, h with
      | some n, h =>
        simp only [Bool.not_eq_true'] at h
        simp [h, htag]
    · rename_i htag
      split at h
      · simp at h
      · rename_i htag2
        rw [if_neg htag, if_neg htag2]
  · rename_i hty
    rw [if_neg hty]

theorem goGroups_chain : ∀ (hs X cur : List Token) (done : List (List Token)),
    inertChainB hs X.head? = true →
    goGroups (hs ++ X) cur done = goGroups X (hs.reverse ++ cur) done := by
  intro hs
  induction hs with
  | nil => intro X cur done _; simp
  | cons t hs' ih =>
    intro X cur done hchain
    simp only [inertChainB, Bool.and_eq_true] at hchain
    have hnext : (hs' ++ X).head? = (match hs'.head? with
        | some r => some r
        | none => X.head?) := by
      cases hs' <;> simp
    simp only [List.cons_append, goGroups, List.append_eq]
    rw [hnext.symm] at hchain
    rw [step_inert t _ hchain.1]
    dsimp only
    rw [ih X (t :: cur) done hchain.2]
    simp

theorem wrongH2_headContent (l : String) (d : Option String) :
    wrongH2 (headContent l d) = false := by
  unfold wrongH2
  rw [headContent_toList]
  simp [List.isPrefixOf]

theorem inertChainB_of_h3 : ∀ (ts : List Token) (after : Option Token),
    (∀ t ∈ ts, t.type ≠ "heading_open" ∨ t.tag = "h3") → inertChainB ts after = true := by
  intro ts
  induction ts with
  | nil => intro after _; rfl
  | cons t rest ih =>
    intro after hall
    simp only [inertChainB, Bool.and_eq_true]
    constructor
    · rcases hall t (List.mem_cons_self t rest) with h | h
      · simp [inertTokB, h]
      · unfold inertTokB
        split
        · rw [if_neg (by rw [h]; decide), if_neg (by rw [h]; decide)]
        · rfl
    · exact ih after (fun x hx => hall x (List.mem_cons_of_mem t hx))

theorem canon_tail_h3only (v : CanonVersion) (hwf : v.WF = true) :
    ∀ t ∈ cInline (headContent v.label v.date) :: h2CloseTok ::
      (v.notices.flatten ++ (canonCats v).flatMap (fun p => catBlockC (titleCase p.1) p.2)),
      t.type ≠ "heading_open" ∨ t.tag = "h3" := by
  simp only [CanonVersion.WF, Bool.and_eq_true] at hwf
  obtain ⟨⟨⟨_, _⟩, hnts⟩, hcats⟩ := hwf
  intro t ht
  simp only [List.mem_cons, List.mem_append] at ht
  rcases ht with h | h | h | h
  · subst h; left; simp [cInline, cTok, Token.type]
  · subst h; left; simp [h2CloseTok, cTok, Token.type]
  · obtain ⟨nt, hnt, htm⟩ := List.mem_flatten.mp h
    have h1 := List.all_eq_true.mp hnts nt hnt
    simp only [noticeOK, Bool.and_eq_true] at h1
    have h2 := List.all_eq_true.mp h1.2 t htm
    simp only [Bool.and_eq_true, decide_eq_true_eq] at h2
    left
    exact h2.2
  · obtain ⟨p, hp, htm⟩ := List.mem_flatMap.mp h
    have h1 := List.all_eq_true.mp hcats p hp
    simp only [itemsOKC, Bool.and_eq_true] at h1
    simp only [catBlockC, List.mem_append, List.mem_cons, List.not_mem_nil, or_false,
      List.mem_singleton] at htm
    rcases htm with ((hh | hh | hh | hh) | hh) | hh
    · subst hh; right; rfl
    · subst hh; left; simp [cInline, cTok, Token.type]
    · subst hh; left; simp [h3CloseTok, cTok, Token.type]
    · subst hh; left; simp [blOpenC, cTok, Token.type]
    · have h2 := List.all_eq_true.mp h1.2 t hh
      simp only [Bool.and_eq_true, decide_eq_true_eq] at h2
      left
      exact h2.2
    · subst hh; left; simp [blCloseC, cTok, Token.type]

theorem goGroups_cons (t : Token) (rest cur : List Token) (done : List (List Token)) :
    goGroups (t :: rest) cur done =
      (match step t rest.head? with
       | .error e => .error e
       | .ok (t', false) => goGroups rest (t' :: cur) done
       | .ok (t', true) => goGroups rest [t'] (cur.reverse :: done)) := rfl

/-- One canonical release section forms exactly one token group. -/
theorem goGroups_version (v : CanonVersion) (hwf : v.WF = true) :
    ∀ (X cur : List Token) (done : List (List Token)),
    goGroups (v.toTokens ++ X) cur done =
      goGroups X (v.toTokens.reverse) (cur.reverse :: done) := by
  intro X cur done
  have hstream : v.toTokens = h2OpenTok :: (cInline (headContent v.label v.date) :: h2CloseTok ::
      (v.notices.flatten ++ (canonCats v).flatMap (fun p => catBlockC (titleCase p.1) p.2))) := by
    simp [CanonVersion.toTokens]
  have hstep : step h2OpenTok (some (cInline (headContent v.label v.date)))
      = .ok (h2OpenTok, true) := by
    unfold step
    rw [if_pos (by rfl), if_neg (by decide), if_pos (by rfl)]
    have hw2 : wrongH2 (cInline (headContent v.label v.date)).content = false :=
      wrongH2_headContent v.label v.date
    simp [hw2]
  rw [hstream, List.cons_append, goGroups_cons]
  rw [show ((cInline (headContent v.label v.date) :: h2CloseTok ::
      (v.notices.flatten ++ (canonCats v).flatMap (fun p => catBlockC (titleCase p.1) p.2)))
      ++ X).head? = some (cInline (headContent v.label v.date)) from by
    rw [List.cons_append, List.head?_cons]]
  rw [hstep]
  dsimp only
  rw [goGroups_chain _ X [h2OpenTok] (cur.reverse :: done)
    (inertChainB_of_h3 _ X.head? (canon_tail_h3only v hwf))]
  simp [List.reverse_cons]

theorem goGroups_versions : ∀ (vs : List CanonVersion), (∀ v ∈ vs, v.WF = true) →
    ∀ (cur : List Token) (done : List (List Token)),
    goGroups ((vs.map CanonVersion.toTokens).flatten) cur done =
      .ok ((cur.reverse :: done).reverse ++ vs.map CanonVersion.toTokens) := by
  intro vs
  induction vs with
  | nil => intro _ cur done; simp [goGroups]
  | cons v vs' ih =>
    intro hall cur done
    have heq : ((v :: vs').map CanonVersion.toTokens).flatten
        = v.toTokens ++ (vs'.map CanonVersion.toTokens).flatten := by simp
    rw [heq, goGroups_version v (hall v (List.mem_cons_self v vs'))]
    rw [ih (fun w hw => hall w (List.mem_cons_of_mem v hw))]
    simp

theorem mapM_fromTokens_canon : ∀ (vs : List CanonVersion), (∀ v ∈ vs, v.WF = true) →
    (vs.map CanonVersion.toTokens).mapM fromTokens = .ok (vs.map CanonVersion.model) := by
  intro vs
  induction vs with
  | nil => intro _; rfl
  | cons v vs' ih =>
    intro hall
    simp only [List.map_cons, List.mapM_cons]
    rw [fromTokens_canon v (hall v (List.mem_cons_self v vs'))]
    rw [ih (fun w hw => hall w (List.mem_cons_of_mem v hw))]
    rfl

/-- Parsing a well-formed canonical document recovers its model exactly. -/
theorem parse_canonDoc (doc : CanonDoc) (url : String) (hwf : doc.WF = true) :
    Changelog.parse url doc.toTokens = .ok (doc.model url) := by
  simp only [CanonDoc.WF, Bool.and_eq_true, Bool.not_eq_true'] at hwf
  obtain ⟨⟨⟨hchain, hnohr⟩, hne⟩, hall⟩ := hwf
  have hallv : ∀ v ∈ doc.vers, v.WF = true := List.all_eq_true.mp hall
  unfold Changelog.parse groupTokens
  rw [show doc.toTokens = doc.header ++ (doc.vers.map CanonVersion.toTokens).flatten from rfl]
  rw [goGroups_chain doc.header _ [] [] hchain]
  rw [goGroups_versions doc.vers hallv _ []]
  simp only [List.append_nil, List.reverse_reverse, List.reverse_cons, List.reverse_nil,
    List.nil_append, List.singleton_append]
  have hfilter : doc.header.filter (fun t => t.tag ≠ "hr") = doc.header :=
    List.filter_eq_self.mpr (fun t ht => by
      have := List.all_eq_true.mp hnohr t ht
      simpa using this)
  rw [hfilter]
  rw [mapM_fromTokens_canon doc.vers hallv]
  simp only []
  have hne2 : (doc.vers.map CanonVersion.model).isEmpty = false := by
    cases hv : doc.vers with
    | nil => rw [hv] at hne; simp at hne
    | cons a l => simp
  rw [hne2]
  rfl

theorem consumeGo_no_leftover_error (fuel : Nat) : ∀ (kw : Kwargs) (ts : List Token),
    consumeGo fuel kw ts ≠ .error (.changelogError "Leftover tokens!") := by
  induction fuel with
  | zero =>
    intro kw ts hcon
    match ts with
    | [] => simp [consumeGo] at hcon
    | t :: rest => simp [consumeGo] at hcon
  | succ n ih =>
    intro kw ts hcon
    match ts with
    | [] => simp [consumeGo] at hcon
    | t :: rest =>
      simp only [consumeGo] at hcon
      split at hcon
      · cases hph : parseHeadingF (t :: rest) with
        | error e =>
          rw [hph] at hcon
          unfold parseHeadingF at hph
          split at hph
          · split at hph
            · simp at hph
            · simp only [Except.error.injEq] at hph
              rw [← hph] at hcon
              simp at hcon
          · simp only [Except.error.injEq] at hph
            rw [← hph] at hcon
            simp at hcon
        | ok pr =>
          obtain ⟨⟨tg, inl⟩, rest2⟩ := pr
          rw [hph] at hcon
          dsimp only at hcon
          cases hbl : parseBulletList rest2 with
          | emptyErr => rw [hbl] at hcon; exact ih kw rest2 hcon
          | malformed => rw [hbl] at hcon; simp at hcon
          | okL items rest3 =>
            rw [hbl] at hcon
            dsimp only at hcon
            split at hcon
            · simp at hcon
            · split at hcon
              · simp at hcon
              · exact ih _ rest3 hcon
      · split at hcon
        · exact ih _ _ hcon
        · split at hcon
          · cases hbl : parseBulletList (t :: rest) with
            | emptyErr => rw [hbl] at hcon; simp at hcon
            | malformed => rw [hbl] at hcon; simp at hcon
            | okL items rest3 =>
              rw [hbl] at hcon
              dsimp only at hcon
              exact ih _ rest3 hcon
          · simp at hcon

theorem invalid_heading_msg_ne (s : String) :
    ("Invalid section heading: " ++ s) ≠ "Leftover tokens!" := by
  intro h
  have h2 := congrArg String.length h
  rw [String.length_append] at h2
  have e1 : ("Invalid section heading: ").length = 25 := by decide
  have e2 : ("Leftover tokens!").length = 16 := by decide
  rw [e1, e2] at h2
  omega

/-- C10: `from_tokens` can never raise the `Leftover tokens!` error: the
consumption loop only stops once the token list is empty (each iteration
pops at least one token or raises a different error), so the post-loop
leftover check never fires. -/
theorem no_leftover_tokens (ts : List Token) :
    fromTokens ts ≠ .error (.changelogError "Leftover tokens!") := by
  intro hcon
  unfold fromTokens at hcon
  split at hcon
  · split at hcon
    · rename_i t0 t1 t2 rest4 hck
      cases hm : headingMatch t1.content with
      | none =>
        rw [hm] at hcon
        simp only [Except.error.injEq, PyError.changelogError.injEq] at hcon
        exact invalid_heading_msg_ne t1.content hcon
      | some pr =>
        obtain ⟨v0, d⟩ := pr
        rw [hm] at hcon
        dsimp only at hcon
        cases hcl : consumeLoop ⟨if leadingV v0 then String.mk (v0.toList.drop 1) else v0, d, [], []⟩
            (rest4.filter (fun t => t.type ≠ "hr")) with
        | error e =>
          rw [hcl] at hcon
          simp only [Except.error.injEq] at hcon
          rw [hcon] at hcl
          exact consumeGo_no_leftover_error _ _ _ hcl
        | ok pr2 =>
          obtain ⟨kw, leftover⟩ := pr2
          rw [hcl] at hcon
          dsimp only at hcon
          unfold consumeLoop at hcl
          have hleft : leftover = [] :=
            consumeGo_no_leftover (rest4.filter (fun t => t.type ≠ "hr")).length _ _ _ _ le_rfl hcl
          subst hleft
          simp only [List.isEmpty_nil, if_true] at hcon
          unfold mkVersion at hcon
          split at hcon
          · simp at hcon
          · simp at hcon
    · simp at hcon
  · simp at hcon

/-- C7: a document whose token stream contains no release-level heading
(every heading-open is a harmless `h1` or `h3`-or-deeper, so no token group
is ever opened) parses to the `No versions!` `ChangelogError`; and a release
section whose heading text matches neither heading pattern — here the empty
heading — raises the `Invalid section heading` `ChangelogError`. -/
theorem malformed_rejection (url : String) (ts : List Token)
    (h : inertChainB ts none = true) :
    Changelog.parse url ts = .error (.changelogError "No versions!") ∧
    fromTokens [h2OpenTok, cInline "", h2CloseTok]
      = .error (.changelogError "Invalid section heading: ") := by
  constructor
  · unfold Changelog.parse groupTokens
    have hg : goGroups ts [] [] = .ok [ts] := by
      have h2 := goGroups_chain ts [] [] [] (by simpa using h)
      simpa [goGroups] using h2
    rw [hg]
    rfl
  · rfl

theorem malformed_rejection_witness :
    inertChainB c7ex none = true ∧
    (Changelog.parse "https://example.com/r" c7ex
        = .error (.changelogError "No versions!") ∧
      fromTokens [h2OpenTok, cInline "", h2CloseTok]
        = .error (.changelogError "Invalid section heading: ")) :=
  ⟨by decide, malformed_rejection "https://example.com/r" c7ex (by decide)⟩

/-- C3: `update_version` promotes the Unreleased entry in place: when the
first entry is the Unreleased sentinel its identifier and date are
overwritten (every other field of that entry, and every other entry, kept by
the record update); when the list is empty or starts with a non-Unreleased
entry, a blank Unreleased entry is inserted first and then promoted, leaving
the original entries untouched.  The preamble and repository url are never
touched. -/
theorem update_version_frame (c : Changelog) (next : String) (d : PyDate) :
    (update_version c next d).repo_url = c.repo_url ∧
    (update_version c next d).header = c.header ∧
    (∀ v0 rest, c.versions = v0 :: rest → v0.version_str = UNRELEASED_VERSION →
      (update_version c next d).versions
        = { v0 with version_str := next, date := some d.isoformat } :: rest) ∧
    ((c.versions = [] ∨ ∃ v0 rest, c.versions = v0 :: rest ∧ v0.version_str ≠ UNRELEASED_VERSION) →
      (update_version c next d).versions
        = { ChangelogVersion.blank_unreleased with
            version_str := next, date := some d.isoformat } :: c.versions) := by
  cases hv : c.versions with
  | nil =>
    refine ⟨by simp [update_version, hv], by simp [update_version, hv], ?_, ?_⟩
    · intro v0 rest h
      simp at h
    · intro _
      simp [update_version, hv, ChangelogVersion.blank_unreleased]
  | cons v0 rest =>
    by_cases h : v0.version_str = UNRELEASED_VERSION
    · refine ⟨by simp [update_version, hv, h], by simp [update_version, hv, h], ?_, ?_⟩
      · intro w0 wrest hw hws
        obtain ⟨h1, h2⟩ := List.cons.inj hw
        subst h1
        subst h2
        simp [update_version, hv, h]
      · intro hcase
        rcases hcase with hnil | ⟨w0, wrest, hw, hws⟩
        · simp at hnil
        · obtain ⟨h1, _⟩ := List.cons.inj hw
          subst h1
          exact absurd h hws
    · refine ⟨by simp [update_version, hv, h], by simp [update_version, hv, h], ?_, ?_⟩
      · intro w0 wrest hw hws
        obtain ⟨h1, _⟩ := List.cons.inj hw
        subst h1
        exact absurd hws h
      · intro _
        simp [update_version, hv, h, ChangelogVersion.blank_unreleased]

theorem update_version_frame_witness :
    chEx.versions = unrelEx :: [relEx] ∧ unrelEx.version_str = UNRELEASED_VERSION ∧
    (update_version chEx "2.3.4" ⟨2024, 1, 2⟩).versions
      = [{ unrelEx with version_str := "2.3.4", date := some "2024-01-02" }, relEx] := by
  refine ⟨rfl, rfl, ?_⟩
  have h := (update_version_frame chEx "2.3.4" ⟨2024, 1, 2⟩).2.2.1 unrelEx [relEx] rfl rfl
  rw [h]
  rfl

/-- C9 counterexample: the identifier `"vv1.0.0"` already starts with `v`,
yet `version_to_tag_str` does not leave it as it is: Python's
`lstrip('v')` removes every leading `v`, so the result is `"v1.0.0"`. -/
theorem version_tag_double_v :
    "vv1.0.0".toList.head? = some 'v' ∧ version_to_tag_str "vv1.0.0" ≠ "vv1.0.0" := by
  constructor
  · decide
  · decide

/-- C9 (amended): for every release identifier that does not start with two
`v` characters, the derived git tag is the identifier itself when it already
starts with `v`, and otherwise the identifier with exactly one `v` prepended. -/
theorem version_tag_derivation (s : String) (h : s.toList.take 2 ≠ ['v', 'v']) :
    version_to_tag_str s =
      (if s.toList.head? = some 'v' then s else "v" ++ s) := by
  obtain ⟨l⟩ := s
  cases l with
  | nil => decide
  | cons c cs =>
    by_cases hc : c = 'v'
    · subst hc
      have hcs : cs.dropWhile (fun c => c = 'v') = cs := by
        cases cs with
        | nil => rfl
        | cons d ds =>
          have hd : d ≠ 'v' := by
            intro hd
            subst hd
            exact h rfl
          simp [List.dropWhile, hd]
      simp [version_to_tag_str, List.dropWhile, hcs]
      rfl
    · simp [version_to_tag_str, List.dropWhile, hc]

theorem version_tag_derivation_witness :
    "x2.0.0".toList.take 2 ≠ ['v', 'v'] ∧
    version_to_tag_str "x2.0.0" =
      (if "x2.0.0".toList.head? = some 'v' then "x2.0.0" else "v" ++ "x2.0.0") :=
  ⟨by decide, version_tag_derivation "x2.0.0" (by decide)⟩

/-- Any concatenation of category blocks with well-formed items contains no
`hr` token, so the `hr` filter of `from_tokens` leaves it unchanged. -/
theorem filter_no_hr_blocks (ps : List (String × List Token))
    (h : ∀ p ∈ ps, itemsOKC p.2 = true) :
    (ps.flatMap (fun p => catBlockC p.1 p.2)).filter (fun t => t.type ≠ "hr")
      = ps.flatMap (fun p => catBlockC p.1 p.2) := by
  rw [List.filter_eq_self]
  intro t ht
  obtain ⟨p, hp, htm⟩ := List.mem_flatMap.mp ht
  have h1 := h p hp
  simp only [itemsOKC, Bool.and_eq_true] at h1
  simp only [catBlockC, List.mem_append, List.mem_cons, List.not_mem_nil, or_false,
    List.mem_singleton] at htm
  simp only [decide_eq_true_eq]
  rcases htm with ((hq | hq | hq | hq) | hq) | hq
  · subst hq; simp [h3OpenTok, cTok, Token.type]
  · subst hq; simp [cInline, cTok, Token.type]
  · subst hq; simp [h3CloseTok, cTok, Token.type]
  · subst hq; simp [blOpenC, cTok, Token.type]
  · have h2 := List.all_eq_true.mp h1.2 t hq
    simp only [Bool.and_eq_true, decide_eq_true_eq] at h2
    exact h2.1
  · subst hq; simp [blCloseC, cTok, Token.type]

/-- C4 counterexample: the heading `Update` is NOT an alias —
`HEADING_REPLACEMENTS` maps `updated`, `change`, `add` and `fix` but not
`update` — so a section using it fails to parse with a `TypeError` from
`cls(**kwargs)` instead of normalizing to `changed`. -/
theorem alias_update_counterexample :
    normalizeHeading "Update" = "update" ∧
    fromTokens c4ex = .error (.typeError "__init__() got an unexpected keyword argument") := by
  constructor
  · rfl
  · rfl

/-- C4 (amended): the category headings `Updated`, `Change` (here with a
trailing colon), `Add` (here bracketed) and `Fix` normalize to `changed`,
`changed`, `added` and `fixed` after bracket/colon stripping and
lower-casing, and when several headings of one section normalize to the same
canonical name (here `Updated`, `Change:` and `Changed`) their bullet items
are merged in encounter order. -/
theorem alias_normalization (a b c d e : List Token)
    (ha : itemsOKC a = true) (hb : itemsOKC b = true) (hc : itemsOKC c = true)
    (hd : itemsOKC d = true) (he : itemsOKC e = true) :
    fromTokens (h2OpenTok :: cInline "[1.0.0]" :: h2CloseTok ::
        ([("Updated", a), ("Change:", b), ("[Add]", c), ("Fix", d), ("Changed", e)].flatMap
          (fun p => catBlockC p.1 p.2)))
      = .ok { version_str := "1.0.0", added := c, changed := a ++ b ++ e, fixed := d } := by
  have hsh : ∀ (nm : String) (its R : List Token), catBlockC nm its ++ R
      = h3OpenTok :: cInline nm :: h3CloseTok :: blOpenC :: (its ++ (blCloseC :: R)) := by
    intro nm its R
    simp [catBlockC]
  have ha' : itemsShape a = true := by
    simp only [itemsOKC, Bool.and_eq_true] at ha; exact ha.1
  have hb' : itemsShape b = true := by
    simp only [itemsOKC, Bool.and_eq_true] at hb; exact hb.1
  have hc' : itemsShape c = true := by
    simp only [itemsOKC, Bool.and_eq_true] at hc; exact hc.1
  have hd' : itemsShape d = true := by
    simp only [itemsOKC, Bool.and_eq_true] at hd; exact hd.1
  have he' : itemsShape e = true := by
    simp only [itemsOKC, Bool.and_eq_true] at he; exact he.1
  rw [fromTokens_cons h2OpenTok (cInline "[1.0.0]") h2CloseTok _ rfl rfl rfl]
  rw [show (cInline "[1.0.0]").content = "[1.0.0]" from rfl]
  rw [show headingMatch "[1.0.0]" = some ("1.0.0", none) from rfl]
  dsimp only
  rw [if_neg (by decide)]
  rw [filter_no_hr_blocks [("Updated", a), ("Change:", b), ("[Add]", c), ("Fix", d),
    ("Changed", e)] (by
      intro p hp
      simp only [List.mem_cons, List.not_mem_nil, or_false] at hp
      rcases hp with rfl | rfl | rfl | rfl | rfl <;> assumption)]
  simp only [List.flatMap_cons, List.flatMap_nil]
  rw [hsh, consumeLoop_catblock _ h3OpenTok (cInline "Updated") h3CloseTok blOpenC blCloseC a _
    rfl rfl rfl rfl rfl rfl ha' (by decide) (by decide) (by decide) (by decide)]
  rw [hsh, consumeLoop_catblock _ h3OpenTok (cInline "Change:") h3CloseTok blOpenC blCloseC b _
    rfl rfl rfl rfl rfl rfl hb' (by decide) (by decide) (by decide) (by decide)]
  rw [hsh, consumeLoop_catblock _ h3OpenTok (cInline "[Add]") h3CloseTok blOpenC blCloseC c _
    rfl rfl rfl rfl rfl rfl hc' (by decide) (by decide) (by decide) (by decide)]
  rw [hsh, consumeLoop_catblock _ h3OpenTok (cInline "Fix") h3CloseTok blOpenC blCloseC d _
    rfl rfl rfl rfl rfl rfl hd' (by decide) (by decide) (by decide) (by decide)]
  rw [hsh, consumeLoop_catblock _ h3OpenTok (cInline "Changed") h3CloseTok blOpenC blCloseC e _
    rfl rfl rfl rfl rfl rfl he' (by decide) (by decide) (by decide) (by decide)]
  rfl

theorem alias_normalization_witness :
    itemsOKC c4w = true ∧ itemsOKC ([] : List Token) = true ∧
    fromTokens (h2OpenTok :: cInline "[1.0.0]" :: h2CloseTok ::
        ([("Updated", c4w), ("Change:", []), ("[Add]", c4w), ("Fix", []), ("Changed", [])].flatMap
          (fun p => catBlockC p.1 p.2)))
      = .ok { version_str := "1.0.0", added := c4w, changed := c4w ++ [] ++ [], fixed := [] } :=
  ⟨by decide, by decide,
    alias_normalization c4w [] c4w [] [] (by decide) (by decide) (by decide) (by decide)
      (by decide)⟩

/-- C5 counterexample: a category heading whose normalized name (`foo`) is
not one of the six canonical categories makes parsing fail with a
`TypeError` from `cls(**kwargs)` — not with the structural
`ChangelogError`, which the claim says is the single error kind raised. -/
theorem unknown_heading_counterexample :
    sectionOrder.contains (normalizeHeading "Foo") = false ∧
    fromTokens c5ex = .error (.typeError "__init__() got an unexpected keyword argument") := by
  constructor
  · rfl
  · rfl

/-- C5 (amended): a release section containing a category heading whose
normalized (bracket-stripped, lower-cased, alias-mapped) name is none of
`added`, `changed`, `deprecated`, `removed`, `fixed`, `security` — nor one
of the dataclass field names `version_str`, `date`, `link`, `notices` that
the loop special-cases — and that is followed by a non-empty bullet list,
is rejected with a `TypeError` raised by `cls(**kwargs)`, not with
`ChangelogError`. -/
theorem unknown_heading_typeerror (nm : String) (items : List Token)
    (hitems : itemsOKC items = true)
    (h1 : sectionOrder.contains (normalizeHeading nm) = false)
    (h2 : normalizeHeading nm ≠ "version_str") (h3 : normalizeHeading nm ≠ "date")
    (h4 : normalizeHeading nm ≠ "link") (h5 : normalizeHeading nm ≠ "notices") :
    fromTokens (h2OpenTok :: cInline "[2.0.0]" :: h2CloseTok ::
        ([(nm, items)].flatMap (fun p => catBlockC p.1 p.2)))
      = .error (.typeError "__init__() got an unexpected keyword argument") := by
  have hitems' : itemsShape items = true := by
    simp only [itemsOKC, Bool.and_eq_true] at hitems; exact hitems.1
  rw [fromTokens_cons h2OpenTok (cInline "[2.0.0]") h2CloseTok _ rfl rfl rfl]
  rw [show (cInline "[2.0.0]").content = "[2.0.0]" from rfl]
  rw [show headingMatch "[2.0.0]" = some ("2.0.0", none) from rfl]
  dsimp only
  rw [if_neg (by decide)]
  rw [filter_no_hr_blocks [(nm, items)] (by
    intro p hp
    simp only [List.mem_cons, List.not_mem_nil, or_false] at hp
    subst hp
    exact hitems)]
  simp only [List.flatMap_cons, List.flatMap_nil]
  rw [show catBlockC nm items ++ []
      = h3OpenTok :: cInline nm :: h3CloseTok :: blOpenC :: (items ++ (blCloseC :: [])) from by
    simp [catBlockC]]
  rw [consumeLoop_catblock _ h3OpenTok (cInline nm) h3CloseTok blOpenC blCloseC items []
    rfl rfl rfl rfl rfl rfl hitems' h2 h3 h4 h5]
  rw [show consumeLoop ((⟨"2.0.0", none, [], []⟩ : Kwargs).extendExtra
      (normalizeHeading (cInline nm).content) items) []
      = .ok (⟨"2.0.0", none, [], [(normalizeHeading nm, items)]⟩, []) from rfl]
  dsimp only
  rw [if_pos (show ([] : List Token).isEmpty = true from rfl)]
  unfold mkVersion
  rw [if_neg (by
    intro hcon
    dsimp only at hcon
    simp only [List.all_cons, List.all_nil, Bool.and_true] at hcon
    rw [h1] at hcon
    exact Bool.false_ne_true hcon)]

theorem unknown_heading_typeerror_witness :
    itemsOKC c5items = true ∧
    sectionOrder.contains (normalizeHeading "Bar") = false ∧
    normalizeHeading "Bar" ≠ "version_str" ∧ normalizeHeading "Bar" ≠ "date" ∧
    normalizeHeading "Bar" ≠ "link" ∧ normalizeHeading "Bar" ≠ "notices" ∧
    fromTokens (h2OpenTok :: cInline "[2.0.0]" :: h2CloseTok ::
        ([("Bar", c5items)].flatMap (fun p => catBlockC p.1 p.2)))
      = .error (.typeError "__init__() got an unexpected keyword argument") :=
  ⟨by decide, by decide, by decide, by decide, by decide, by decide,
    unknown_heading_typeerror "Bar" c5items (by decide) (by decide) (by decide) (by decide)
      (by decide) (by decide)⟩

theorem flatMap_skip_filter (p : String → Bool) (f : String → List Token) :
    ∀ l : List String,
      l.flatMap (fun x => if p x then [] else f x) = (l.filter (fun x => !p x)).flatMap f := by
  intro l
  induction l with
  | nil => rfl
  | cons x xs ih =>
    by_cases h : p x = true
    · simp [List.flatMap_cons, List.filter_cons, h, ih]
    · simp only [Bool.not_eq_true] at h
      simp [List.flatMap_cons, List.filter_cons, h, ih]

/-- C8: empty-category stripping.  A category heading followed by no bullet
list at all is consumed without error and adds nothing to the model; a
category heading followed by an empty bullet list likewise yields a model
with that category empty; and `serialize` emits exactly the non-empty
categories (an empty category produces no heading and no list). -/
theorem empty_category_stripping :
    fromTokens [h2OpenTok, cInline "[1.0.0]", h2CloseTok,
        h3OpenTok, cInline "Added", h3CloseTok]
      = .ok { version_str := "1.0.0" } ∧
    fromTokens [h2OpenTok, cInline "[1.0.0]", h2CloseTok,
        h3OpenTok, cInline "Added", h3CloseTok, blOpenC, blCloseC]
      = .ok { version_str := "1.0.0" } ∧
    ∀ v : ChangelogVersion, serialize v = serializeFiltered v := by
  refine ⟨rfl, rfl, ?_⟩
  intro v
  unfold serialize serializeFiltered
  dsimp only
  rw [flatMap_skip_filter (fun sec => (getCat v sec).isEmpty) _ sectionOrder]

theorem empty_category_stripping_witness :
    serialize { version_str := "0.1.0" } = serializeFiltered { version_str := "0.1.0" } :=
  empty_category_stripping.2.2 { version_str := "0.1.0" }

/-- A heading content that triggers the `h1` repair starts with `[`, so it
cannot also look like a category heading (`Add|Fix|Change|Remove`). -/
theorem wrongH2_false_of_wrongH1 (s : String) (h : wrongH1 s = true) : wrongH2 s = false := by
  have hhead : ∃ r, s.toList = '[' :: r := by
    unfold wrongH1 at h
    split at h
    · rename_i heq
      exact ⟨_, heq⟩
    · rename_i heq
      exact ⟨_, heq⟩
    · exact absurd h Bool.false_ne_true
  obtain ⟨r, hr⟩ := hhead
  unfold wrongH2
  rw [hr]
  rfl

theorem withTag_tag (t : Token) (s : String) : (t.withTag s).tag = s := by
  cases t
  rfl

/-- C6 counterexample: an `h1` heading whose text starts with a digit not
preceded by `[` (here `1.0.0 - 2020-01-01`) is NOT downgraded —
`wrong_h1_re` is `^\[v?\d`, which requires the bracket — so the document
has no release section and parsing fails with `No versions!` instead of
treating it as a release. -/
theorem h1_repair_counterexample :
    "1.0.0 - 2020-01-01".toList.head? = some '1' ∧
    wrongH1 "1.0.0 - 2020-01-01" = false ∧
    Changelog.parse "https://example.com/r" c6bad
      = .error (.changelogError "No versions!") := by
  refine ⟨by decide, by decide, ?_⟩
  rfl

/-- C6 (amended): an `h1` heading-open whose following inline text starts
with `[`, an optional `v`, and a digit is downgraded to `h2` in place
(keeping every other token field) and starts a release section; in
particular the example document written with `# [1.0.0] - 2020-01-01`
parses exactly as the one written with `## [1.0.0] - 2020-01-01`, and both
parse successfully. -/
theorem h1_heading_repair (t n : Token) (ht : t.type = "heading_open")
    (htag : t.tag = "h1") (hc : wrongH1 n.content = true) :
    step t (some n) = .ok (t.withTag "h2", true) ∧
    Changelog.parse "https://example.com/r" c6dH1
      = Changelog.parse "https://example.com/r" c6dH2 ∧
    (Changelog.parse "https://example.com/r" c6dH1).toOption.isSome = true := by
  refine ⟨?_, rfl, rfl⟩
  unfold step
  rw [if_pos ht, if_pos htag]
  dsimp only
  rw [if_pos hc, if_pos (withTag_tag t "h2")]
  rw [if_neg (by rw [wrongH2_false_of_wrongH1 n.content hc]; exact Bool.false_ne_true)]

theorem h1_heading_repair_witness :
    (cTok "heading_open" "h1" 1 "" "#").type = "heading_open" ∧
    (cTok "heading_open" "h1" 1 "" "#").tag = "h1" ∧
    wrongH1 (cInline "[2.0.0]").content = true ∧
    (step (cTok "heading_open" "h1" 1 "" "#") (some (cInline "[2.0.0]"))
        = .ok ((cTok "heading_open" "h1" 1 "" "#").withTag "h2", true) ∧
      Changelog.parse "https://example.com/r" c6dH1
        = Changelog.parse "https://example.com/r" c6dH2 ∧
      (Changelog.parse "https://example.com/r" c6dH1).toOption.isSome = true) :=
  ⟨rfl, rfl, by decide, h1_heading_repair _ _ rfl rfl (by decide)⟩

/-- `k` absent from the keys of a string-valued assoc list gives a `none`
lookup. -/
theorem lookupS_none_not_mem : ∀ (ps : List (String × String)) (k : String),
    k ∉ ps.map Prod.fst → ps.lookup k = none := by
  intro ps
  induction ps with
  | nil => intro k _; rfl
  | cons a ps' ih =>
    intro k hk
    obtain ⟨k1, v1⟩ := a
    simp only [List.map_cons, List.mem_cons] at hk
    push_neg at hk
    have hbe : (k == k1) = false := by simpa using hk.1
    simp only [List.lookup_cons, hbe]
    exact ih k hk.2

/-- Appending past a missing key. -/
theorem lookup_appendS : ∀ (l1 l2 : List (String × String)) (k : String),
    l1.lookup k = none → (l1 ++ l2).lookup k = l2.lookup k := by
  intro l1
  induction l1 with
  | nil => intro l2 k _; rfl
  | cons a l1' ih =>
    intro l2 k h
    obtain ⟨k1, v1⟩ := a
    rw [List.lookup_cons] at h
    match hbe : k == k1 with
    | true => rw [hbe] at h; exact absurd h (by simp)
    | false =>
      rw [hbe] at h
      simp only at h
      rw [List.cons_append, List.lookup_cons, hbe]
      exact ih l2 k h

theorem refsGo_fresh (url : String) : ∀ (vs : List ChangelogVersion) (prior : Option String)
    (acc : List (String × String)),
    (∀ v ∈ vs, acc.lookup v.version_str = none) →
    (vs.map (fun v => v.version_str)).Nodup →
    refsGo url vs prior acc = acc ++ linksList url vs prior := by
  intro vs
  induction vs with
  | nil =>
    intro prior acc _ _
    simp [refsGo, linksList]
  | cons v rest ih =>
    intro prior acc hfresh hnd
    simp only [List.map_cons, List.nodup_cons] at hnd
    have hv : acc.lookup v.version_str = none := hfresh v (List.mem_cons_self v rest)
    have hins : dictInsert acc v.version_str (hrefFor url prior (tagOf v))
        = acc ++ [(v.version_str, hrefFor url prior (tagOf v))] := by
      simp [dictInsert, hv]
    rw [refsGo, hins]
    rw [ih (tagOf v) _ ?fresh hnd.2]
    · simp [linksList]
    case fresh =>
      intro w hw
      have hw1 : acc.lookup w.version_str = none := hfresh w (List.mem_cons_of_mem v hw)
      have hwne : w.version_str ≠ v.version_str := by
        intro he
        exact hnd.1 (he ▸ List.mem_map_of_mem (fun v => v.version_str) hw)
      rw [lookup_appendS _ _ _ hw1]
      have hbe : (w.version_str == v.version_str) = false := by simpa using hwne
      simp [List.lookup_cons, hbe]

/-- C2: link synthesis.  For distinct release identifiers, the reference
table built by `render` is exactly the oldest-to-newest scan that gives the
oldest entry `releases/tag/<tag>` (or `commits/HEAD` for Unreleased) and
each later entry `compare/<priorTag>...<thisTagOrHEAD>`; in particular the
example `[Unreleased, 2.0.0, 1.0.0]` with url `https://example.com/r`
yields exactly the three claimed links. -/
theorem link_synthesis (url : String) (vs : List ChangelogVersion)
    (hnd : (vs.map (fun v => v.version_str)).Nodup) :
    refsFor url vs = linksList url vs.reverse none ∧
    refsFor "https://example.com/r" c2ex
      = [("1.0.0", "https://example.com/r/releases/tag/v1.0.0"),
         ("2.0.0", "https://example.com/r/compare/v1.0.0...v2.0.0"),
         ("Unreleased", "https://example.com/r/compare/v2.0.0...HEAD")] := by
  constructor
  · unfold refsFor
    rw [refsGo_fresh url vs.reverse none [] (fun v _ => rfl) ?nd]
    · exact List.nil_append _
    case nd =>
      rw [List.map_reverse]
      exact List.nodup_reverse.mpr hnd
  · rfl

theorem link_synthesis_witness :
    (c2ex.map (fun v => v.version_str)).Nodup ∧
    (refsFor "https://example.com/r" c2ex
        = linksList "https://example.com/r" c2ex.reverse none ∧
      refsFor "https://example.com/r" c2ex
        = [("1.0.0", "https://example.com/r/releases/tag/v1.0.0"),
           ("2.0.0", "https://example.com/r/compare/v1.0.0...v2.0.0"),
           ("Unreleased", "https://example.com/r/compare/v2.0.0...HEAD")]) :=
  ⟨by decide, link_synthesis "https://example.com/r" c2ex (by decide)⟩

/-- C1: round-trip stability on canonical documents.  For any external
tokenizer and renderer, if the document text `D` tokenizes to the canonical
stream of a well-formed canonical changelog and rendering that changelog's
token stream and reference table reproduces `D` (i.e. `D` is the canonical
rendering of its own content), then parsing `D` succeeds and re-rendering
the parsed changelog returns `D` byte-identically. -/
theorem changelog_roundtrip_canonical
    (tokenize : String → List Token)
    (mdrender : List Token → List (String × String) → String)
    (doc : CanonDoc) (url D : String)
    (hwf : doc.WF = true)
    (htok : tokenize D = doc.toTokens)
    (hD : mdrender ((doc.model url).renderTokens) ((doc.model url).renderRefs) = D) :
    ∃ c, Changelog.parse url (tokenize D) = .ok c ∧
      mdrender c.renderTokens c.renderRefs = D := by
  refine ⟨doc.model url, ?_, hD⟩
  rw [htok]
  exact parse_canonDoc doc url hwf

theorem changelog_roundtrip_canonical_witness :
    c1doc.WF = true ∧
    (fun _ : String => c1doc.toTokens) "D" = c1doc.toTokens ∧
    (fun (_ : List Token) (_ : List (String × String)) => "D")
        ((c1doc.model "https://example.com/r").renderTokens)
        ((c1doc.model "https://example.com/r").renderRefs) = "D" ∧
    ∃ c, Changelog.parse "https://example.com/r"
          ((fun _ : String => c1doc.toTokens) "D") = .ok c ∧
        (fun (_ : List Token) (_ : List (String × String)) => "D")
          c.renderTokens c.renderRefs = "D" :=
  ⟨by decide, rfl, rfl,
    changelog_roundtrip_canonical (fun _ => c1doc.toTokens) (fun _ _ => "D") c1doc
      "https://example.com/r" "D" (by decide) rfl rfl⟩
